import Mathlib

/-!
Verification of the go-zdd Zero-suppressed Decision Diagram engine.

The Go sources are shallowly embedded:

* `NodeID`/`Node`/`NodeTable` model the node storage (`NodeID uint32`,
  `Node{Level, Lo, Hi}`, `NodeTable` with its triple-keyed dedup index;
  ids are small, so `Nat` is used — no arithmetic on ids ever overflows).
  The table field `stored` holds the nodes with ids `3, 4, …` in allocation
  order; the reserved ids `0` (null), `1` (⊥), `2` (⊤) are implicit, as in
  the Go constructor `NewNodeTable` which pre-seeds three slots.
* `NodeTable.AddNode`, `NodeTable.GetNode`, `NodeTable.Size` follow the Go
  methods of the same names.  The Go hash index maps a node triple to the id
  it was first registered under, which is the first index holding that triple.
* `CSpec` is the `ConstraintSpec` interface; `ChildRes` is the result of
  `GetChild` (a violation error, an ordinary successor state, or a
  `*SkipState`).  `context.Context` cancellation and wall-clock timeouts are
  real-time behaviour and are not modelled: in this model the `ctx.Done()`
  select always takes the default branch.
* `buildM` is `ZDD.buildRecursive`.  Construction can diverge on ill-behaved
  specifications, so it takes a fuel argument; `none` means the recursion did
  not terminate within the given fuel.
* Go `int64` arithmetic in the counting evaluator wraps; `wrap64` models it.
* Go `float64` costs are modelled as exact rationals `ℚ`.
-/

namespace GoZdd

/-- Node identifier (`type NodeID uint32`). -/
abbrev NodeID := Nat

/-- `NullNode NodeID = 0`: invalid / uninitialised reference. -/
def NullNode : NodeID := 0

/-- `ZeroNode NodeID = 1`: the 0-terminal `⊥`. -/
def ZeroNode : NodeID := 1

/-- `OneNode NodeID = 2`: the 1-terminal `⊤`. -/
def OneNode : NodeID := 2

/-- A ZDD node: `Node{Level int; Lo, Hi NodeID}`.  Levels produced by the
constructor are the (nonnegative) `level` arguments of `buildRecursive`. -/
structure Node where
  level : Nat
  lo : NodeID
  hi : NodeID
deriving DecidableEq, Repr

/-- `Node.IsTerminal`: `n.Level == 0`. -/
def Node.IsTerminal (n : Node) : Bool := n.level == 0

/-- The sentinel errors of errors.go (`ErrInvalidVariable`, …). -/
inductive Sentinel where
  | invalidVariable
  | invalidLevel
  | invalidNode
  | memoryLimit
  | timeout
  | infeasible
  | invalidConstraint
  | notReduced
deriving DecidableEq, Repr

/-- A Go error value as the engine produces them: a sentinel wrapped with
context by `fmt.Errorf("...: %w", err)` (`wrap`), a bare sentinel, or an
error built by `fmt.Errorf`/`errors.New` without `%w` (`plain`). -/
inductive GoError where
  | sentinelErr (s : Sentinel)
  | plain (msg : String)
  | wrap (msg : String) (inner : GoError)
deriving DecidableEq, Repr

/-- `errors.Is(e, sentinel)`: unwraps `%w` chains. -/
def errorsIs : GoError → Sentinel → Bool
  | .sentinelErr s', s => s' == s
  | .plain _, _ => false
  | .wrap _ inner, s => errorsIs inner s

/-- The node table (`NodeTable`): `stored` holds the nodes with ids
`3, 3+1, …` in allocation order.  The Go struct's hash index maps a triple
to the id it was first registered under; registration happens exactly when
the triple is appended, so the index is recovered as the first position in
`stored` holding the triple. -/
structure NodeTable where
  stored : List Node
deriving DecidableEq, Repr

/-- The fresh table produced by `NewNodeTable` (no non-terminal node yet). -/
def NodeTable.empty : NodeTable := ⟨[]⟩

/-- `NodeTable.Size`: `int(nt.next) - 1`, i.e. terminals included, null
excluded. -/
def NodeTable.Size (nt : NodeTable) : Nat := nt.stored.length + 2

/-- `NodeTable.GetNode` with bounds checking: `id == NullNode` or
`int(id) >= len(nt.nodes)` fails with `ErrInvalidNode` wrapped by
`fmt.Errorf("%w: node ID %d", ...)`; the two terminals are the pre-seeded
`Node{Level: 0, Lo: NullNode, Hi: NullNode}`. -/
def NodeTable.GetNode (nt : NodeTable) (id : NodeID) : Except GoError Node :=
  if id = NullNode ∨ 3 + nt.stored.length ≤ id then
    .error (.wrap "node ID out of range" (.sentinelErr .invalidNode))
  else if id = ZeroNode ∨ id = OneNode then
    .ok ⟨0, NullNode, NullNode⟩
  else
    .ok (nt.stored.getD (id - 3) ⟨0, NullNode, NullNode⟩)

/-- `NodeTable.AddNode(level, lo, hi)`:
1. if `hi == ZeroNode` return `lo` (zero-suppression, no allocation);
2. on a hit in the dedup index return the registered id;
3. otherwise append the node, register it, and return the fresh id
   (`next`, which is `3 + len stored`).  Returns the updated table together
   with the id. -/
def NodeTable.AddNode (nt : NodeTable) (level : Nat) (lo hi : NodeID) :
    NodeTable × NodeID :=
  if hi = ZeroNode then (nt, lo)
  else
    let n : Node := ⟨level, lo, hi⟩
    match nt.stored.findIdx? (fun x => x = n) with
    | some i => (nt, i + 3)
    | none => (⟨nt.stored ++ [n]⟩, nt.stored.length + 3)

/-- Result of one `GetChild` call: a non-nil error (constraint violation,
which prunes the branch), an ordinary successor `State`, or a `*SkipState`
carrying the wrapped state and the (possibly nonpositive) `SkipTo` level. -/
inductive ChildRes (S : Type) where
  | err
  | state (s : S)
  | skip (s : S) (skipTo : Int)

/-- The `ConstraintSpec` interface: `Variables`, `InitialState`, `GetChild`
(with the decision `take`), `IsValid`.  The `ctx` parameter of `GetChild`
is cancellation plumbing and is not modelled. -/
structure CSpec (S : Type) where
  vars : Nat
  init : S
  getChild : S → Nat → Bool → ChildRes S
  isValid : S → Bool

/-- Modelled from the spec: the construction memo behind
`NodeTable.LookupState` / `NodeTable.CacheState`, whose source file is not
part of the provided sources.  Per spec §3 it is a mapping
`(state fingerprint, level) → node id`, where the fingerprint is the state
hash verified with `Equal`; for well-behaved states this is a map keyed on
state equality, modelled as an association list consulted front-to-back. -/
def Memo (S : Type) := List ((S × Nat) × NodeID)

/-- Modelled from the spec: `NodeTable.LookupState` — look the pair
`(state, level)` up in the construction memo, `NullNode`-free variant
returning `none` on a miss. -/
def memoLookup {S : Type} [DecidableEq S] (m : Memo S) (s : S) (l : Nat) :
    Option NodeID :=
  match List.find? (fun e => decide (e.1 = (s, l))) m with
  | some e => some e.2
  | none => none

/-- One branch of `buildRecursive` (shared shape of the lo and hi arcs),
parametrised by the recursive call `rec`: a violation prunes to `⊥`; a
`*SkipState` with `SkipTo <= 0` is resolved against `IsValid`; a
`*SkipState` with positive `SkipTo` recurses at `SkipTo`; an ordinary state
recurses at `level - 1`. -/
def buildMBranch {S : Type} (sp : CSpec S)
    (rec : S → Nat → NodeTable → Memo S → Option (NodeTable × Memo S × NodeID))
    (res : ChildRes S) (level : Nat) (nt : NodeTable) (m : Memo S) :
    Option (NodeTable × Memo S × NodeID) :=
  match res with
  | .err => some (nt, m, ZeroNode)
  | .state s' => rec s' (level - 1) nt m
  | .skip s' k =>
    if k ≤ 0 then some (nt, m, if sp.isValid s' then OneNode else ZeroNode)
    else rec s' k.toNat nt m

/-- `ZDD.buildRecursive`, fuelled (`none` = the recursion did not finish
within `fuel`; the Go original simply keeps running).  Steps, in source
order: terminal test (`level == 0` → `IsValid`); memo lookup
(`LookupState`); lo branch (`GetChild(.., false)`); hi branch
(`GetChild(.., true)`); `AddNode(level, lo, hi)`; `CacheState`. -/
def buildM {S : Type} [DecidableEq S] (sp : CSpec S) :
    Nat → S → Nat → NodeTable → Memo S → Option (NodeTable × Memo S × NodeID)
  | 0, _, _, _, _ => none
  | fuel + 1, s, level, nt, m =>
    if level = 0 then
      some (nt, m, if sp.isValid s then OneNode else ZeroNode)
    else
      match memoLookup m s level with
      | some id => some (nt, m, id)
      | none =>
        match buildMBranch sp (buildM sp fuel) (sp.getChild s level false) level nt m with
        | none => none
        | some (nt1, m1, lo) =>
          match buildMBranch sp (buildM sp fuel) (sp.getChild s level true) level nt1 m1 with
          | none => none
          | some (nt2, m2, hi) =>
            let r := nt2.AddNode level lo hi
            some (r.1, ((s, level), r.2) :: m2, r.2)

/-- One branch of the memo-free reference build (same decisions as
`buildMBranch`, no memo threading). -/
def buildPBranch {S : Type} (sp : CSpec S)
    (rec : S → Nat → NodeTable → Option (NodeTable × NodeID))
    (res : ChildRes S) (level : Nat) (nt : NodeTable) :
    Option (NodeTable × NodeID) :=
  match res with
  | .err => some (nt, ZeroNode)
  | .state s' => rec s' (level - 1) nt
  | .skip s' k =>
    if k ≤ 0 then some (nt, if sp.isValid s' then OneNode else ZeroNode)
    else rec s' k.toNat nt

/-- Memo-free reference version of `buildRecursive`: identical recursion,
no `LookupState`/`CacheState`.  Used to reason about the memoised build;
`buildM_to_buildP`/`buildP_to_buildM` below prove the two agree on tables
and ids. -/
def buildP {S : Type} (sp : CSpec S) :
    Nat → S → Nat → NodeTable → Option (NodeTable × NodeID)
  | 0, _, _, _ => none
  | fuel + 1, s, level, nt =>
    if level = 0 then
      some (nt, if sp.isValid s then OneNode else ZeroNode)
    else
      match buildPBranch sp (buildP sp fuel) (sp.getChild s level false) level nt with
      | none => none
      | some (nt1, lo) =>
        match buildPBranch sp (buildP sp fuel) (sp.getChild s level true) level nt1 with
        | none => none
        | some (nt2, hi) =>
          some (nt2.AddNode level lo hi)

/-- One branch of the accepted-subset count (same transition decisions as
`buildPBranch`, counting instead of building). -/
def accBranch {S : Type} (sp : CSpec S) (rec : S → Nat → Option Nat)
    (res : ChildRes S) (level : Nat) : Option Nat :=
  match res with
  | .err => some 0
  | .state s' => rec s' (level - 1)
  | .skip s' k =>
    if k ≤ 0 then some (if sp.isValid s' then 1 else 0)
    else rec s' k.toNat

/-- Following the spec's words (claim C1): a subset `T` is accepted when it
is reachable by `GetChild` transitions without violation with `IsValid` true
at the bottom.  `acceptedCountF` counts the accepted subsets by the same
transition structure (fuelled, since a malformed spec need not terminate). -/
def acceptedCountF {S : Type} (sp : CSpec S) : Nat → S → Nat → Option Nat
  | 0, _, _ => none
  | fuel + 1, s, level =>
    if level = 0 then
      some (if sp.isValid s then 1 else 0)
    else
      match accBranch sp (acceptedCountF sp fuel) (sp.getChild s level false) level with
      | none => none
      | some clo =>
        match accBranch sp (acceptedCountF sp fuel) (sp.getChild s level true) level with
        | none => none
        | some chi => some (clo + chi)

/-- A specification is skip-conformant when every skip directive it emits
has `skipTo < level`, as the `SkipState` documentation requires
("1-based level to skip to (must be < current level)"). -/
def goodSkip {S : Type} (sp : CSpec S) : Prop :=
  ∀ s level b s' k, sp.getChild s level b = .skip s' k → k < (level : Int)

/-- Construction configuration (options.go `Config`): worker count, memory
limit in bytes (`int64`), timeout (a duration; `0` disables).  Durations are
wall-clock quantities; only the stored value is modelled. -/
structure Config where
  Workers : Int
  MemoryLimit : Int
  Timeout : Int
deriving DecidableEq, Repr

/-- An `Option` is a function updating the configuration. -/
def ZOption := Config → Config

/-- `WithParallel(workers)`: nonpositive counts mean `runtime.NumCPU()`,
which is an environment quantity and is passed in as `numCPU`. -/
def WithParallel (numCPU : Int) (workers : Int) : ZOption :=
  fun c => if workers ≤ 0 then { c with Workers := numCPU }
           else { c with Workers := workers }

/-- `WithMemoryLimit(bytes)`. -/
def WithMemoryLimit (bytes : Int) : ZOption :=
  fun c => { c with MemoryLimit := bytes }

/-- `WithTimeout(d)`. -/
def WithTimeout (d : Int) : ZOption :=
  fun c => { c with Timeout := d }

/-- `newConfig`: defaults `Workers = 1`, `MemoryLimit = 1 << 30` (1GB),
`Timeout = 0`, then applies the options in order. -/
def newConfig (opts : List ZOption) : Config :=
  opts.foldl (fun c o => o c) { Workers := 1, MemoryLimit := 1 <<< 30, Timeout := 0 }

/-- The `ZDD` struct: root id, node table, variable count, reduction flag,
configuration. -/
structure ZDD where
  root : NodeID
  nodes : NodeTable
  vars : Nat
  reduced : Bool
  config : Config

/-- `NewZDD(vars, opts...)`: negative `vars` is clamped to `0`; the root is
`NullNode`; the table is fresh. -/
def NewZDD (vars : Int) (opts : List ZOption) : ZDD :=
  { root := NullNode
    nodes := NodeTable.empty
    vars := (if vars < 0 then 0 else vars).toNat
    reduced := false
    config := newConfig opts }

/-- `ZDD.Build`: reject a variable-count mismatch, then run `buildRecursive`
from the initial state at the top level and publish the root.  The timeout
installs a context deadline, which is real time and is not modelled; the
memory limit is never consulted by `Build` (faithful to the source).
`none` = the recursion did not terminate within `fuel`. -/
def ZDD.Build {S : Type} [DecidableEq S] (z : ZDD) (sp : CSpec S) (fuel : Nat) :
    Option (Except GoError ZDD) :=
  if sp.vars ≠ z.vars then
    some (.error (.plain "spec variables != ZDD variables"))
  else
    match buildM sp fuel sp.init z.vars z.nodes [] with
    | none => none
    | some (nt, _, root) => some (.ok { z with root := root, nodes := nt })

/-- Go `int64` wrap-around: reduce into `[-2^63, 2^63)`. -/
def wrap64 (x : Int) : Int := (x + 2 ^ 63) % 2 ^ 64 - 2 ^ 63

/-- Pure solution count with exact `Nat` arithmetic: `cnt ⊥ = 0`,
`cnt ⊤ = 1`, `cnt v = cnt v.lo + cnt v.hi`.  This is the path-count
recurrence of spec §4.C.1 and counts the root-to-`⊤` paths.  `none` on
invalid ids or fuel exhaustion. -/
def countPN (nt : NodeTable) : Nat → NodeID → Option Nat
  | 0, _ => none
  | fuel + 1, id =>
    if id = ZeroNode then some 0
    else if id = OneNode then some 1
    else match nt.GetNode id with
      | .error _ => none
      | .ok n =>
        match countPN nt fuel n.lo with
        | none => none
        | some clo =>
          match countPN nt fuel n.hi with
          | none => none
          | some chi => some (clo + chi)

/-- Pure solution count in wrapping `int64` arithmetic (the arithmetic the
Go evaluator actually performs). -/
def countPW (nt : NodeTable) : Nat → NodeID → Option Int
  | 0, _ => none
  | fuel + 1, id =>
    if id = ZeroNode then some 0
    else if id = OneNode then some 1
    else match nt.GetNode id with
      | .error _ => none
      | .ok n =>
        match countPW nt fuel n.lo with
        | none => none
        | some clo =>
          match countPW nt fuel n.hi with
          | none => none
          | some chi => some (wrap64 (clo + chi))

/-- The count evaluator's memo `map[NodeID]int64`, as an association list
(later writes shadow earlier ones). -/
def CMemo := List (NodeID × Int)

/-- Lookup in the count memo. -/
def cmemoLookup (m : CMemo) (id : NodeID) : Option Int :=
  match List.find? (fun e => decide (e.1 = id)) m with
  | some e => some e.2
  | none => none

/-- `CountEvaluator.countRecursive`, fuelled: memo lookup, terminal cases
(which memoise), `GetNode` (an invalid id surfaces its error), recurse on
`Lo` then `Hi`, total in `int64` arithmetic, memoise. -/
def countM (nt : NodeTable) : Nat → NodeID → CMemo →
    Option (Except GoError (CMemo × Int))
  | 0, _, _ => none
  | fuel + 1, id, m =>
    match cmemoLookup m id with
    | some c => some (.ok (m, c))
    | none =>
      if id = ZeroNode then some (.ok ((id, 0) :: m, 0))
      else if id = OneNode then some (.ok ((id, 1) :: m, 1))
      else match nt.GetNode id with
        | .error e => some (.error e)
        | .ok n =>
          match countM nt fuel n.lo m with
          | none => none
          | some (.error e) => some (.error e)
          | some (.ok (m1, clo)) =>
            match countM nt fuel n.hi m1 with
            | none => none
            | some (.error e) => some (.error e)
            | some (.ok (m2, chi)) =>
              let t := wrap64 (clo + chi)
              some (.ok ((id, t) :: m2, t))

/-- `CountEvaluator.Evaluate` (and `ZDD.Count` through `EvaluateZDD`):
`0` with no error for a null root, otherwise the memoised recursive count,
with failures wrapped by `fmt.Errorf("count evaluation failed: %w", err)`. -/
def CountEvaluate (fuel : Nat) (z : ZDD) : Option (Except GoError Int) :=
  if z.root = NullNode then some (.ok 0)
  else
    match countM z.nodes fuel z.root [] with
    | none => none
    | some (.error e) => some (.error (.wrap "count evaluation failed" e))
    | some (.ok (_, c)) => some (.ok c)

/-- A solution (`Solution`): the selected 1-based variable indices and the
accumulated cost.  The `Metadata` map is created empty by the evaluators and
never read; it is not modelled.  Go `float64` costs are modelled as exact
rationals. -/
structure Solution where
  vars : List Nat
  cost : ℚ
deriving DecidableEq, Repr

/-- Ascending sort of the selected variables (`sort.Ints`), as a stable
insertion sort (the output of any correct ascending sort of naturals). -/
def sortNat : List Nat → List Nat
  | [] => []
  | x :: xs => insertNat x (sortNat xs)
where
  /-- Insert into an ascending list. -/
  insertNat (x : Nat) : List Nat → List Nat
    | [] => [x]
    | y :: ys => if x ≤ y then x :: y :: ys else y :: insertNat x ys

/-- `KBestEvaluator.enumerateSolutions`, fuelled: `⊥` contributes nothing;
`⊤` emits the current path as a solution (variables sorted ascending);
otherwise recurse on `Lo` with the path unchanged, and on `Hi` with the
node's level appended and its cost added when `0 < Level < len(costs)`. -/
def enumSol (costs : List ℚ) (nt : NodeTable) :
    Nat → NodeID → List Nat → ℚ → Option (Except GoError (List Solution))
  | 0, _, _, _ => none
  | fuel + 1, id, curV, curC =>
    if id = ZeroNode then some (.ok [])
    else if id = OneNode then some (.ok [⟨sortNat curV, curC⟩])
    else match nt.GetNode id with
      | .error e => some (.error e)
      | .ok n =>
        match enumSol costs nt fuel n.lo curV curC with
        | none => none
        | some (.error e) => some (.error e)
        | some (.ok los) =>
          let newC := curC +
            (if 0 < n.level ∧ n.level < costs.length then costs.getD n.level 0 else 0)
          match enumSol costs nt fuel n.hi (curV ++ [n.level]) newC with
          | none => none
          | some (.error e) => some (.error e)
          | some (.ok his) => some (.ok (los ++ his))

/-- Ascending-by-cost sort.  `KBestEvaluator.Evaluate` calls `sort.Slice`
comparing only costs; `sort.Slice` is documented as not stable (it happens
to run an insertion sort on slices of fewer than about 12 elements), so
this insertion sort fixes one admissible output among the sorted-by-cost
permutations of its input.  Every conclusion drawn from it below —
sortedness, head minimality, pairwise-distinct variable sets of a
permutation — is invariant under which sorted-by-cost permutation the
program's sort returns. -/
def sortByCost : List Solution → List Solution
  | [] => []
  | x :: xs => insertCost x (sortByCost xs)
where
  /-- Stable insertion: an element passes strictly cheaper ones only. -/
  insertCost (x : Solution) : List Solution → List Solution
    | [] => [x]
    | y :: ys => if x.cost ≤ y.cost then x :: y :: ys else y :: insertCost x ys

/-- `KBestEvaluator.Evaluate` (and `ZDD.FindKBest` through `EvaluateZDD`):
empty result for a null root or `k <= 0`; `len(costs) <= vars` fails with
the plain `fmt.Errorf("insufficient cost data: ...")` error (no `%w`);
otherwise enumerate all solutions, sort ascending by cost, truncate to `k`. -/
def KBestEvaluate (fuel : Nat) (k : Int) (costs : List ℚ) (z : ZDD) :
    Option (Except GoError (List Solution)) :=
  if z.root = NullNode ∨ k ≤ 0 then some (.ok [])
  else if costs.length ≤ z.vars then
    some (.error (.plain "insufficient cost data"))
  else
    match enumSol costs z.nodes fuel z.root [] 0 with
    | none => none
    | some (.error e) => some (.error (.wrap "k-best evaluation failed" e))
    | some (.ok sols) => some (.ok ((sortByCost sols).take k.toNat))

/-! ### Node table invariants -/

/-- Table extension: `nt'` is `nt` with zero or more nodes appended
(identifiers are stable, the published array never shrinks). -/
def Ext (nt nt' : NodeTable) : Prop :=
  ∃ t, nt'.stored = nt.stored ++ t

theorem Ext.refl (nt : NodeTable) : Ext nt nt := ⟨[], by simp⟩

theorem Ext.trans {a b c : NodeTable} (h1 : Ext a b) (h2 : Ext b c) : Ext a c := by
  obtain ⟨t1, e1⟩ := h1
  obtain ⟨t2, e2⟩ := h2
  exact ⟨t1 ++ t2, by simp [e2, e1]⟩

/-- `AddNode` only appends. -/
theorem AddNode_ext (nt : NodeTable) (level : Nat) (lo hi : NodeID) :
    Ext nt (nt.AddNode level lo hi).1 := by
  unfold NodeTable.AddNode
  split
  · exact Ext.refl nt
  · dsimp only
    split
    · exact Ext.refl nt
    · exact ⟨[⟨level, lo, hi⟩], rfl⟩

/-- Zero-suppression: an insertion with `hi = ⊥` returns `lo` and leaves
the table untouched. -/
theorem AddNode_hiZero (nt : NodeTable) (level : Nat) (lo : NodeID) :
    nt.AddNode level lo ZeroNode = (nt, lo) := by
  unfold NodeTable.AddNode
  simp

/-- Tables reachable from the fresh table by `AddNode` calls. -/
inductive ReachableTable : NodeTable → Prop
  | empty : ReachableTable NodeTable.empty
  | step {nt : NodeTable} (level : Nat) (lo hi : NodeID) :
      ReachableTable nt → ReachableTable (nt.AddNode level lo hi).1

/-- No stored node has its hi arc at `⊥`. -/
def NoHiZero (nt : NodeTable) : Prop :=
  ∀ n ∈ nt.stored, n.hi ≠ ZeroNode

instance (nt : NodeTable) : Decidable (NoHiZero nt) := by
  unfold NoHiZero; infer_instance

/-- `AddNode` preserves `NoHiZero`. -/
theorem AddNode_noHiZero {nt : NodeTable} (h : NoHiZero nt)
    (level : Nat) (lo hi : NodeID) : NoHiZero (nt.AddNode level lo hi).1 := by
  unfold NodeTable.AddNode
  split
  · exact h
  · rename_i hne
    dsimp only
    split
    · exact h
    · intro n hn
      rcases List.mem_append.1 hn with hn | hn
      · exact h n hn
      · simp only [List.mem_singleton] at hn
        subst hn
        exact hne

/-- Every table reachable by `AddNode` calls satisfies `NoHiZero`. -/
theorem reachable_noHiZero {nt : NodeTable} (h : ReachableTable nt) :
    NoHiZero nt := by
  induction h with
  | empty => intro n hn; simp [NodeTable.empty] at hn
  | step level lo hi _ ih => exact AddNode_noHiZero ih level lo hi

/-- If a triple is absent from a list, appending it puts its first
occurrence at the end. -/
theorem findIdx?_append_self {l : List Node} {n : Node}
    (h : l.findIdx? (fun x => x = n) = none) :
    (l ++ [n]).findIdx? (fun x => x = n) = some l.length := by
  induction l with
  | nil => simp
  | cons a t ih =>
    rw [List.findIdx?_cons] at h
    rw [List.cons_append, List.findIdx?_cons]
    by_cases ha : a = n
    · simp [ha] at h
    · simp only [ha, decide_eq_false, if_false] at h ⊢
      rw [List.findIdx?_succ] at h ⊢
      have h' := Option.map_eq_none'.1 h
      rw [ih h']
      simp [List.length_cons]

/-- Repeating an `AddNode` call with `hi ≠ ⊥` returns the same id and
performs no further allocation: the second call is the identity on the
table and yields the first call's id. -/
theorem AddNode_idem {nt : NodeTable} {level : Nat} {lo hi : NodeID}
    (h : hi ≠ ZeroNode) :
    (nt.AddNode level lo hi).1.AddNode level lo hi = nt.AddNode level lo hi := by
  unfold NodeTable.AddNode
  simp only [h, if_false]
  cases hfind : nt.stored.findIdx? (fun x => x = (⟨level, lo, hi⟩ : Node)) with
  | some i => simp [hfind]
  | none => simp [hfind, findIdx?_append_self hfind]

/-- `AddNode` preserves the absence of duplicate triples. -/
theorem AddNode_nodup {nt : NodeTable} (h : nt.stored.Nodup)
    (level : Nat) (lo hi : NodeID) : (nt.AddNode level lo hi).1.stored.Nodup := by
  unfold NodeTable.AddNode
  split
  · exact h
  · dsimp only
    cases hfind : nt.stored.findIdx? (fun x => x = (⟨level, lo, hi⟩ : Node)) with
    | some i => simpa [hfind] using h
    | none =>
      simp only [hfind]
      have hmem : (⟨level, lo, hi⟩ : Node) ∉ nt.stored := by
        intro hmem
        rcases List.findIdx?_eq_none_iff.1 hfind with hall
        have := hall _ hmem
        simp at this
      simpa [List.nodup_append] using ⟨h, fun hx => hmem hx⟩

/-- Reachable tables store at most one node per `(level, lo, hi)` triple. -/
theorem reachable_nodup {nt : NodeTable} (h : ReachableTable nt) :
    nt.stored.Nodup := by
  induction h with
  | empty => simp [NodeTable.empty]
  | step level lo hi _ ih => exact AddNode_nodup ih level lo hi

/-- In a duplicate-free table, stored positions with equal triples are
equal: two stored non-terminals are the same node iff their triples agree. -/
theorem nodup_get_inj {nt : NodeTable} (h : nt.stored.Nodup)
    {i j : Nat} (hi' : i < nt.stored.length) (hj : j < nt.stored.length)
    (he : nt.stored.get ⟨i, hi'⟩ = nt.stored.get ⟨j, hj⟩) : i = j := by
  have := List.Nodup.get_inj_iff h (i := ⟨i, hi'⟩) (j := ⟨j, hj⟩)
  have h2 := this.1 he
  exact congrArg Fin.val h2

/-! ### Fuel monotonicity -/

theorem buildPBranch_congr {S : Type} {sp : CSpec S}
    {rec rec' : S → Nat → NodeTable → Option (NodeTable × NodeID)}
    (h : ∀ s l nt r, rec s l nt = some r → rec' s l nt = some r)
    {res : ChildRes S} {level : Nat} {nt : NodeTable} {r}
    (hb : buildPBranch sp rec res level nt = some r) :
    buildPBranch sp rec' res level nt = some r := by
  cases res with
  | err => exact hb
  | state s' => exact h _ _ _ _ hb
  | skip s' k =>
    simp only [buildPBranch] at hb ⊢
    by_cases hk : k ≤ 0
    · simpa [hk] using hb
    · simp only [hk, if_false] at hb ⊢
      exact h _ _ _ _ hb

theorem buildMBranch_congr {S : Type} {sp : CSpec S}
    {rec rec' : S → Nat → NodeTable → Memo S → Option (NodeTable × Memo S × NodeID)}
    (h : ∀ s l nt m r, rec s l nt m = some r → rec' s l nt m = some r)
    {res : ChildRes S} {level : Nat} {nt : NodeTable} {m : Memo S} {r}
    (hb : buildMBranch sp rec res level nt m = some r) :
    buildMBranch sp rec' res level nt m = some r := by
  cases res with
  | err => exact hb
  | state s' => exact h _ _ _ _ _ hb
  | skip s' k =>
    simp only [buildMBranch] at hb ⊢
    by_cases hk : k ≤ 0
    · simpa [hk] using hb
    · simp only [hk, if_false] at hb ⊢
      exact h _ _ _ _ _ hb

theorem accBranch_congr {S : Type} {sp : CSpec S}
    {rec rec' : S → Nat → Option Nat}
    (h : ∀ s l r, rec s l = some r → rec' s l = some r)
    {res : ChildRes S} {level : Nat} {r}
    (hb : accBranch sp rec res level = some r) :
    accBranch sp rec' res level = some r := by
  cases res with
  | err => exact hb
  | state s' => exact h _ _ _ hb
  | skip s' k =>
    simp only [accBranch] at hb ⊢
    by_cases hk : k ≤ 0
    · simpa [hk] using hb
    · simp only [hk, if_false] at hb ⊢
      exact h _ _ _ hb

/-- One-step unfolding of `buildP` at positive fuel. -/
theorem buildP_succ {S : Type} (sp : CSpec S) (f : Nat) (s : S) (level : Nat)
    (nt : NodeTable) :
    buildP sp (f + 1) s level nt =
      if level = 0 then some (nt, if sp.isValid s then OneNode else ZeroNode)
      else
        match buildPBranch sp (buildP sp f) (sp.getChild s level false) level nt with
        | none => none
        | some (nt1, lo) =>
          match buildPBranch sp (buildP sp f) (sp.getChild s level true) level nt1 with
          | none => none
          | some (nt2, hi) => some (nt2.AddNode level lo hi) := rfl

/-- One-step unfolding of `buildM` at positive fuel. -/
theorem buildM_succ {S : Type} [DecidableEq S] (sp : CSpec S) (f : Nat) (s : S)
    (level : Nat) (nt : NodeTable) (m : Memo S) :
    buildM sp (f + 1) s level nt m =
      if level = 0 then some (nt, m, if sp.isValid s then OneNode else ZeroNode)
      else
        match memoLookup m s level with
        | some id => some (nt, m, id)
        | none =>
          match buildMBranch sp (buildM sp f) (sp.getChild s level false) level nt m with
          | none => none
          | some (nt1, m1, lo) =>
            match buildMBranch sp (buildM sp f) (sp.getChild s level true) level nt1 m1 with
            | none => none
            | some (nt2, m2, hi) =>
              let r := nt2.AddNode level lo hi
              some (r.1, ((s, level), r.2) :: m2, r.2) := rfl

/-- One-step unfolding of `acceptedCountF` at positive fuel. -/
theorem acceptedCountF_succ {S : Type} (sp : CSpec S) (f : Nat) (s : S)
    (level : Nat) :
    acceptedCountF sp (f + 1) s level =
      if level = 0 then some (if sp.isValid s then 1 else 0)
      else
        match accBranch sp (acceptedCountF sp f) (sp.getChild s level false) level with
        | none => none
        | some clo =>
          match accBranch sp (acceptedCountF sp f) (sp.getChild s level true) level with
          | none => none
          | some chi => some (clo + chi) := rfl

theorem buildP_mono_succ {S : Type} (sp : CSpec S) :
    ∀ (f : Nat) {s : S} {level : Nat} {nt : NodeTable} {r},
      buildP sp f s level nt = some r → buildP sp (f + 1) s level nt = some r := by
  intro f
  induction f with
  | zero => intro s level nt r h; simp [buildP] at h
  | succ f ih =>
    intro s level nt r h
    rw [buildP_succ] at h
    rw [buildP_succ]
    by_cases hl : level = 0
    · simpa [hl] using h
    · simp only [hl, if_false] at h ⊢
      cases hb1 : buildPBranch sp (buildP sp f) (sp.getChild s level false) level nt with
      | none => rw [hb1] at h; cases h
      | some p1 =>
        obtain ⟨nt1, lo⟩ := p1
        rw [hb1] at h
        rw [buildPBranch_congr (fun _ _ _ _ hh => ih hh) hb1]
        dsimp only at h ⊢
        cases hb2 : buildPBranch sp (buildP sp f) (sp.getChild s level true) level nt1 with
        | none => rw [hb2] at h; cases h
        | some p2 =>
          obtain ⟨nt2, hi⟩ := p2
          rw [hb2] at h
          rw [buildPBranch_congr (fun _ _ _ _ hh => ih hh) hb2]
          exact h

theorem buildP_mono {S : Type} {sp : CSpec S} {f g : Nat} (hfg : f ≤ g)
    {s : S} {level : Nat} {nt : NodeTable} {r}
    (h : buildP sp f s level nt = some r) : buildP sp g s level nt = some r := by
  induction g with
  | zero => exact Nat.le_zero.1 hfg ▸ h
  | succ g ih =>
    rcases Nat.lt_or_ge f (g + 1) with hlt | hge
    · exact buildP_mono_succ sp g (ih (Nat.lt_succ_iff.1 hlt))
    · have : f = g + 1 := Nat.le_antisymm hfg hge
      exact this ▸ h

theorem buildM_mono_succ {S : Type} [DecidableEq S] (sp : CSpec S) :
    ∀ (f : Nat) {s : S} {level : Nat} {nt : NodeTable} {m : Memo S} {r},
      buildM sp f s level nt m = some r → buildM sp (f + 1) s level nt m = some r := by
  intro f
  induction f with
  | zero => intro s level nt m r h; simp [buildM] at h
  | succ f ih =>
    intro s level nt m r h
    rw [buildM_succ] at h
    rw [buildM_succ]
    by_cases hl : level = 0
    · simpa [hl] using h
    · simp only [hl, if_false] at h ⊢
      cases hml : memoLookup m s level with
      | some id => rw [hml] at h; exact h
      | none =>
        rw [hml] at h
        dsimp only at h ⊢
        cases hb1 : buildMBranch sp (buildM sp f) (sp.getChild s level false) level nt m with
        | none => rw [hb1] at h; cases h
        | some p1 =>
          obtain ⟨nt1, m1, lo⟩ := p1
          rw [hb1] at h
          rw [buildMBranch_congr (fun _ _ _ _ _ hh => ih hh) hb1]
          dsimp only at h ⊢
          cases hb2 : buildMBranch sp (buildM sp f) (sp.getChild s level true) level nt1 m1 with
          | none => rw [hb2] at h; cases h
          | some p2 =>
            obtain ⟨nt2, m2, hi⟩ := p2
            rw [hb2] at h
            rw [buildMBranch_congr (fun _ _ _ _ _ hh => ih hh) hb2]
            exact h

theorem buildM_mono {S : Type} [DecidableEq S] {sp : CSpec S} {f g : Nat}
    (hfg : f ≤ g) {s : S} {level : Nat} {nt : NodeTable} {m : Memo S} {r}
    (h : buildM sp f s level nt m = some r) : buildM sp g s level nt m = some r := by
  induction g with
  | zero => exact Nat.le_zero.1 hfg ▸ h
  | succ g ih =>
    rcases Nat.lt_or_ge f (g + 1) with hlt | hge
    · exact buildM_mono_succ sp g (ih (Nat.lt_succ_iff.1 hlt))
    · have : f = g + 1 := Nat.le_antisymm hfg hge
      exact this ▸ h

theorem acceptedCountF_mono_succ {S : Type} (sp : CSpec S) :
    ∀ (f : Nat) {s : S} {level : Nat} {r},
      acceptedCountF sp f s level = some r → acceptedCountF sp (f + 1) s level = some r := by
  intro f
  induction f with
  | zero => intro s level r h; simp [acceptedCountF] at h
  | succ f ih =>
    intro s level r h
    rw [acceptedCountF_succ] at h
    rw [acceptedCountF_succ]
    by_cases hl : level = 0
    · simpa [hl] using h
    · simp only [hl, if_false] at h ⊢
      cases hb1 : accBranch sp (acceptedCountF sp f) (sp.getChild s level false) level with
      | none => rw [hb1] at h; cases h
      | some c1 =>
        rw [hb1] at h
        rw [accBranch_congr (fun _ _ _ hh => ih hh) hb1]
        dsimp only at h ⊢
        cases hb2 : accBranch sp (acceptedCountF sp f) (sp.getChild s level true) level with
        | none => rw [hb2] at h; cases h
        | some c2 =>
          rw [hb2] at h
          rw [accBranch_congr (fun _ _ _ hh => ih hh) hb2]
          exact h

theorem acceptedCountF_mono {S : Type} {sp : CSpec S} {f g : Nat} (hfg : f ≤ g)
    {s : S} {level : Nat} {r}
    (h : acceptedCountF sp f s level = some r) : acceptedCountF sp g s level = some r := by
  induction g with
  | zero => exact Nat.le_zero.1 hfg ▸ h
  | succ g ih =>
    rcases Nat.lt_or_ge f (g + 1) with hlt | hge
    · exact acceptedCountF_mono_succ sp g (ih (Nat.lt_succ_iff.1 hlt))
    · have : f = g + 1 := Nat.le_antisymm hfg hge
      exact this ▸ h

/-- Successful fuelled runs agree across fuels. -/
theorem buildP_det {S : Type} {sp : CSpec S} {f g : Nat}
    {s : S} {level : Nat} {nt : NodeTable} {r r'}
    (h : buildP sp f s level nt = some r) (h' : buildP sp g s level nt = some r') :
    r = r' := by
  have h1 := buildP_mono (Nat.le_max_left f g) h
  have h2 := buildP_mono (Nat.le_max_right f g) h'
  rw [h1] at h2
  exact Option.some.inj h2

theorem acceptedCountF_det {S : Type} {sp : CSpec S} {f g : Nat}
    {s : S} {level : Nat} {r r'}
    (h : acceptedCountF sp f s level = some r)
    (h' : acceptedCountF sp g s level = some r') : r = r' := by
  have h1 := acceptedCountF_mono (Nat.le_max_left f g) h
  have h2 := acceptedCountF_mono (Nat.le_max_right f g) h'
  rw [h1] at h2
  exact Option.some.inj h2

/-! ### Stability of the reference build under table extension -/

/-- A hit in a list is preserved by appending. -/
theorem findIdx?_append_some {l t : List Node} {p : Node → Bool} {j : Nat}
    (h : l.findIdx? p = some j) : (l ++ t).findIdx? p = some j := by
  induction l generalizing j with
  | nil => simp [List.findIdx?] at h
  | cons a l ih =>
    rw [List.findIdx?_cons, List.findIdx?_succ] at h
    rw [List.cons_append, List.findIdx?_cons, List.findIdx?_succ]
    by_cases ha : p a
    · simpa [ha] using h
    · simp only [ha, if_false] at h ⊢
      cases hfi : l.findIdx? p with
      | none => rw [hfi] at h; cases h
      | some j' =>
        rw [hfi] at h
        simp only [Option.map_some'] at h
        rw [ih hfi, Option.map_some']
        exact h

/-- A miss followed by a positive element: the first hit of the appended
list is at the junction. -/
theorem findIdx?_append_mid {l t : List Node} {p : Node → Bool} {a : Node}
    (h : l.findIdx? p = none) (ha : p a) :
    (l ++ a :: t).findIdx? p = some l.length := by
  induction l with
  | nil => simp [List.findIdx?_cons, ha]
  | cons b l ih =>
    rw [List.findIdx?_cons, List.findIdx?_succ] at h
    rw [List.cons_append, List.findIdx?_cons, List.findIdx?_succ]
    by_cases hb : p b
    · simp [hb] at h
    · simp only [hb, if_false] at h ⊢
      have h' := Option.map_eq_none'.1 h
      rw [ih h']
      simp [List.length_cons]

/-- `AddNode` is stable under extension: re-running a call on any extension
of the call's output table returns the same id and changes nothing. -/
theorem AddNode_stable {nt nt' X : NodeTable} {level : Nat} {lo hi id : NodeID}
    (h : nt.AddNode level lo hi = (nt', id)) (hx : Ext nt' X) :
    X.AddNode level lo hi = (X, id) := by
  by_cases hz : hi = ZeroNode
  · subst hz
    rw [AddNode_hiZero] at h
    injection h with he1 he2
    rw [AddNode_hiZero, he2]
  · unfold NodeTable.AddNode at h ⊢
    simp only [hz, if_false] at h ⊢
    obtain ⟨tl, htl⟩ := hx
    cases hfind : nt.stored.findIdx? (fun x => x = (⟨level, lo, hi⟩ : Node)) with
    | some j =>
      rw [hfind] at h
      injection h with he1 he2
      have hXs : X.stored = nt.stored ++ tl := by rw [htl, ← he1]
      rw [show X.stored.findIdx? (fun x => decide (x = (⟨level, lo, hi⟩ : Node))) = some j from
        hXs ▸ findIdx?_append_some hfind]
      dsimp only
      rw [he2]
    | none =>
      rw [hfind] at h
      injection h with he1 he2
      have hXs : X.stored = nt.stored ++ (⟨level, lo, hi⟩ : Node) :: tl := by
        rw [htl, ← he1]; simp
      rw [show X.stored.findIdx? (fun x => decide (x = (⟨level, lo, hi⟩ : Node))) =
            some nt.stored.length from
        hXs ▸ findIdx?_append_mid hfind (by simp)]
      dsimp only
      rw [he2]

/-- A branch's output table extends its input table, generically in the
recursive call. -/
theorem buildPBranch_ext {S : Type} {sp : CSpec S}
    {rec : S → Nat → NodeTable → Option (NodeTable × NodeID)}
    (hrec : ∀ s l nt nt' i, rec s l nt = some (nt', i) → Ext nt nt')
    {res : ChildRes S} {level : Nat} {nt nt' : NodeTable} {i : NodeID}
    (hb : buildPBranch sp rec res level nt = some (nt', i)) : Ext nt nt' := by
  cases res with
  | err => cases hb; exact Ext.refl nt
  | state s' => exact hrec _ _ _ _ _ hb
  | skip s' k =>
    simp only [buildPBranch] at hb
    by_cases hk : k ≤ 0
    · rw [if_pos hk] at hb; cases hb; exact Ext.refl nt
    · rw [if_neg hk] at hb; exact hrec _ _ _ _ _ hb

/-- The reference build only extends the table. -/
theorem buildP_ext {S : Type} {sp : CSpec S} :
    ∀ (f : Nat) {s : S} {level : Nat} {nt nt' : NodeTable} {i : NodeID},
      buildP sp f s level nt = some (nt', i) → Ext nt nt' := by
  intro f
  induction f with
  | zero => intro s level nt nt' i h; simp [buildP] at h
  | succ f ih =>
    intro s level nt nt' i h
    rw [buildP_succ] at h
    by_cases hl : level = 0
    · rw [if_pos hl] at h; cases h; exact Ext.refl nt
    · rw [if_neg hl] at h
      cases hb1 : buildPBranch sp (buildP sp f) (sp.getChild s level false) level nt with
      | none => rw [hb1] at h; cases h
      | some p1 =>
        obtain ⟨nt1, lo⟩ := p1
        rw [hb1] at h
        dsimp only at h
        cases hb2 : buildPBranch sp (buildP sp f) (sp.getChild s level true) level nt1 with
        | none => rw [hb2] at h; cases h
        | some p2 =>
          obtain ⟨nt2, hi⟩ := p2
          rw [hb2] at h
          dsimp only at h
          have e1 : Ext nt nt1 := buildPBranch_ext (fun _ _ _ _ _ hh => ih hh) hb1
          have e2 : Ext nt1 nt2 := buildPBranch_ext (fun _ _ _ _ _ hh => ih hh) hb2
          have hadd := Option.some.inj h
          have e3 : Ext nt2 nt' := by
            have he := AddNode_ext nt2 level lo hi
            rw [hadd] at he
            exact he
          exact (e1.trans e2).trans e3

/-- Branch-level stability, generic in the recursive call. -/
theorem buildPBranch_stable {S : Type} {sp : CSpec S}
    (rec : S → Nat → NodeTable → Option (NodeTable × NodeID))
    (hrec : ∀ s l nt nt' i X, rec s l nt = some (nt', i) → Ext nt' X →
      rec s l X = some (X, i))
    {res : ChildRes S} {level : Nat} {nt nt' X : NodeTable} {i : NodeID}
    (hb : buildPBranch sp rec res level nt = some (nt', i)) (hx : Ext nt' X) :
    buildPBranch sp rec res level X = some (X, i) := by
  cases res with
  | err => cases hb; rfl
  | state s' => exact hrec _ _ _ _ _ _ hb hx
  | skip s' k =>
    simp only [buildPBranch] at hb ⊢
    by_cases hk : k ≤ 0
    · rw [if_pos hk] at hb ⊢; cases hb; rfl
    · rw [if_neg hk] at hb ⊢; exact hrec _ _ _ _ _ _ hb hx

/-- Stability of the reference build: re-running a successful call on any
extension of its output table changes nothing and returns the same id
(recomputation is fully absorbed by `AddNode` deduplication). -/
theorem buildP_stable {S : Type} {sp : CSpec S} :
    ∀ (f : Nat) {s : S} {level : Nat} {nt nt' X : NodeTable} {i : NodeID},
      buildP sp f s level nt = some (nt', i) → Ext nt' X →
      buildP sp f s level X = some (X, i) := by
  intro f
  induction f with
  | zero => intro s level nt nt' X i h hx; simp [buildP] at h
  | succ f ih =>
    intro s level nt nt' X i h hx
    rw [buildP_succ] at h
    rw [buildP_succ]
    by_cases hl : level = 0
    · rw [if_pos hl] at h ⊢
      cases h; rfl
    · rw [if_neg hl] at h ⊢
      cases hb1 : buildPBranch sp (buildP sp f) (sp.getChild s level false) level nt with
      | none => rw [hb1] at h; cases h
      | some p1 =>
        obtain ⟨nt1, lo⟩ := p1
        rw [hb1] at h
        dsimp only at h
        cases hb2 : buildPBranch sp (buildP sp f) (sp.getChild s level true) level nt1 with
        | none => rw [hb2] at h; cases h
        | some p2 =>
          obtain ⟨nt2, hi⟩ := p2
          rw [hb2] at h
          dsimp only at h
          have hadd : nt2.AddNode level lo hi = (nt', i) := Option.some.inj h
          have e2 : Ext nt1 nt2 := buildPBranch_ext (fun _ _ _ _ _ hh => buildP_ext f hh) hb2
          have e3 : Ext nt2 nt' := by
            have he := AddNode_ext nt2 level lo hi
            rw [hadd] at he
            exact he
          have hx1 : Ext nt1 X := (e2.trans e3).trans hx
          have hx2 : Ext nt2 X := e3.trans hx
          rw [buildPBranch_stable (buildP sp f) (fun _ _ _ _ _ _ hh hxx => ih hh hxx) hb1 hx1]
          dsimp only
          rw [buildPBranch_stable (buildP sp f) (fun _ _ _ _ _ _ hh hxx => ih hh hxx) hb2 hx2]
          dsimp only
          rw [AddNode_stable hadd hx]

/-! ### Memo elimination: the memoised build agrees with the reference -/

/-- Memo coherence: every cached `(state, level) ↦ id` entry re-derives
itself against the memo-free reference build without growing the table. -/
def MemoOK {S : Type} [DecidableEq S] (sp : CSpec S) (nt : NodeTable)
    (m : Memo S) : Prop :=
  ∀ s l i, memoLookup m s l = some i → ∃ f, buildP sp f s l nt = some (nt, i)

theorem memoOK_nil {S : Type} [DecidableEq S] (sp : CSpec S) (nt : NodeTable) :
    MemoOK sp nt ([] : Memo S) := by
  intro s l i h
  simp [memoLookup, List.find?] at h

theorem memoOK_ext {S : Type} [DecidableEq S] {sp : CSpec S}
    {nt X : NodeTable} {m : Memo S} (h : MemoOK sp nt m) (hx : Ext nt X) :
    MemoOK sp X m := by
  intro s l i hl
  obtain ⟨f, hf⟩ := h s l i hl
  exact ⟨f, buildP_stable f hf hx⟩

theorem memoLookup_cons {S : Type} [DecidableEq S] {m : Memo S}
    {s₀ : S} {l₀ : Nat} {i₀ : NodeID} (s : S) (l : Nat) :
    memoLookup (((s₀, l₀), i₀) :: m) s l =
      if (s₀, l₀) = (s, l) then some i₀ else memoLookup m s l := by
  simp only [memoLookup, List.find?]
  by_cases he : (s₀, l₀) = (s, l) <;> simp [he]

theorem memoOK_cons {S : Type} [DecidableEq S] {sp : CSpec S}
    {nt : NodeTable} {m : Memo S} (h : MemoOK sp nt m)
    {s : S} {l : Nat} {i : NodeID} {g : Nat}
    (hb : buildP sp g s l nt = some (nt, i)) :
    MemoOK sp nt (((s, l), i) :: m) := by
  intro s' l' i' hl
  rw [memoLookup_cons] at hl
  by_cases he : (s, l) = (s', l')
  · rw [if_pos he] at hl
    obtain ⟨hs, hll⟩ := Prod.mk.injEq .. ▸ he
    subst hs; subst hll
    cases hl
    exact ⟨g, hb⟩
  · rw [if_neg he] at hl
    exact h s' l' i' hl

theorem buildMBranch_to_P {S : Type} [DecidableEq S] {sp : CSpec S} {f : Nat}
    (hrec : ∀ {s : S} {level : Nat} {nt : NodeTable} {m : Memo S} {nt' m' i},
      buildM sp f s level nt m = some (nt', m', i) → MemoOK sp nt m →
      (∃ g, buildP sp g s level nt = some (nt', i)) ∧ MemoOK sp nt' m' ∧ Ext nt nt')
    {res : ChildRes S} {level : Nat} {nt : NodeTable} {m : Memo S}
    {nt1 : NodeTable} {m1 : Memo S} {lo : NodeID}
    (hb : buildMBranch sp (buildM sp f) res level nt m = some (nt1, m1, lo))
    (hok : MemoOK sp nt m) :
    (∃ g, buildPBranch sp (buildP sp g) res level nt = some (nt1, lo)) ∧
      MemoOK sp nt1 m1 ∧ Ext nt nt1 := by
  cases res with
  | err =>
    cases hb
    exact ⟨⟨0, rfl⟩, hok, Ext.refl nt⟩
  | state s' =>
    exact hrec hb hok
  | skip s' k =>
    simp only [buildMBranch] at hb
    by_cases hk : k ≤ 0
    · rw [if_pos hk] at hb
      cases hb
      refine ⟨⟨0, ?_⟩, hok, Ext.refl nt⟩
      simp [buildPBranch, hk]
    · rw [if_neg hk] at hb
      obtain ⟨⟨g, hg⟩, hok1, hext⟩ := hrec hb hok
      refine ⟨⟨g, ?_⟩, hok1, hext⟩
      simp [buildPBranch, hk, hg]

/-- Memo elimination, forward: a successful memoised build yields the same
table and root id as the memo-free reference build, and keeps the memo
coherent. -/
theorem buildM_to_buildP {S : Type} [DecidableEq S] {sp : CSpec S} :
    ∀ (f : Nat) {s : S} {level : Nat} {nt : NodeTable} {m : Memo S}
      {nt' : NodeTable} {m' : Memo S} {i : NodeID},
      buildM sp f s level nt m = some (nt', m', i) → MemoOK sp nt m →
      (∃ g, buildP sp g s level nt = some (nt', i)) ∧ MemoOK sp nt' m' ∧
        Ext nt nt' := by
  intro f
  induction f with
  | zero => intro s level nt m nt' m' i h hok; simp [buildM] at h
  | succ f ih =>
    intro s level nt m nt' m' i h hok
    rw [buildM_succ] at h
    by_cases hl : level = 0
    · rw [if_pos hl] at h
      have h' := Option.some.inj h
      have h1 : nt = nt' := congrArg Prod.fst h'
      have h2 : m = m' := congrArg (fun x => x.2.1) h'
      have h3 : (if sp.isValid s then OneNode else ZeroNode) = i :=
        congrArg (fun x => x.2.2) h'
      subst h1; subst h2; subst h3; subst hl
      exact ⟨⟨1, rfl⟩, hok, Ext.refl nt⟩
    · rw [if_neg hl] at h
      cases hml : memoLookup m s level with
      | some i0 =>
        rw [hml] at h
        have h' := Option.some.inj h
        have h1 : nt = nt' := congrArg Prod.fst h'
        have h2 : m = m' := congrArg (fun x => x.2.1) h'
        have h3 : i0 = i := congrArg (fun x => x.2.2) h'
        subst h1; subst h2; subst h3
        obtain ⟨g, hg⟩ := hok s level i0 hml
        exact ⟨⟨g, hg⟩, hok, Ext.refl nt⟩
      | none =>
        rw [hml] at h
        dsimp only at h
        cases hb1 : buildMBranch sp (buildM sp f) (sp.getChild s level false) level nt m with
        | none => rw [hb1] at h; cases h
        | some p1 =>
          obtain ⟨nt1, m1, lo⟩ := p1
          rw [hb1] at h
          dsimp only at h
          cases hb2 : buildMBranch sp (buildM sp f) (sp.getChild s level true) level nt1 m1 with
          | none => rw [hb2] at h; cases h
          | some p2 =>
            obtain ⟨nt2, m2, hi⟩ := p2
            rw [hb2] at h
            dsimp only at h
            obtain ⟨⟨g1, hg1⟩, hok1, hext1⟩ :=
              buildMBranch_to_P (fun hh hkk => ih hh hkk) hb1 hok
            obtain ⟨⟨g2, hg2⟩, hok2, hext2⟩ :=
              buildMBranch_to_P (fun hh hkk => ih hh hkk) hb2 hok1
            have h' := Option.some.inj h
            have h1 : (nt2.AddNode level lo hi).1 = nt' := congrArg Prod.fst h'
            have h2 : ((s, level), (nt2.AddNode level lo hi).2) :: m2 = m' :=
              congrArg (fun x => x.2.1) h'
            have h3 : (nt2.AddNode level lo hi).2 = i := congrArg (fun x => x.2.2) h'
            have hg1' : buildPBranch sp (buildP sp (max g1 g2)) (sp.getChild s level false)
                level nt = some (nt1, lo) :=
              buildPBranch_congr (fun _ _ _ _ hh => buildP_mono (Nat.le_max_left g1 g2) hh) hg1
            have hg2' : buildPBranch sp (buildP sp (max g1 g2)) (sp.getChild s level true)
                level nt1 = some (nt2, hi) :=
              buildPBranch_congr (fun _ _ _ _ hh => buildP_mono (Nat.le_max_right g1 g2) hh) hg2
            have hP : buildP sp (max g1 g2 + 1) s level nt =
                some (nt2.AddNode level lo hi) := by
              rw [buildP_succ, if_neg hl, hg1']
              dsimp only
              rw [hg2']
            have hPr : buildP sp (max g1 g2 + 1) s level nt = some (nt', i) := by
              rw [hP]
              rw [show nt2.AddNode level lo hi = (nt', i) from Prod.ext h1 h3]
            have hext3 : Ext nt2 nt' := by
              have he := AddNode_ext nt2 level lo hi
              rw [h1] at he
              exact he
            have hokF : MemoOK sp nt' m2 := memoOK_ext hok2 hext3
            have hPself : buildP sp (max g1 g2 + 1) s level nt' = some (nt', i) :=
              buildP_stable (max g1 g2 + 1) hPr (Ext.refl nt')
            refine ⟨⟨max g1 g2 + 1, hPr⟩, ?_, (hext1.trans hext2).trans hext3⟩
            rw [← h2, h3]
            exact memoOK_cons hokF hPself

theorem buildPBranch_to_M {S : Type} [DecidableEq S] {sp : CSpec S} {g : Nat}
    (hrec : ∀ {s : S} {level : Nat} {nt nt' : NodeTable} {i : NodeID} (m : Memo S),
      buildP sp g s level nt = some (nt', i) → MemoOK sp nt m →
      ∃ f m', buildM sp f s level nt m = some (nt', m', i) ∧ MemoOK sp nt' m')
    {res : ChildRes S} {level : Nat} {nt nt1 : NodeTable} {lo : NodeID}
    (m : Memo S)
    (hb : buildPBranch sp (buildP sp g) res level nt = some (nt1, lo))
    (hok : MemoOK sp nt m) :
    ∃ f m1, buildMBranch sp (buildM sp f) res level nt m = some (nt1, m1, lo) ∧
      MemoOK sp nt1 m1 := by
  cases res with
  | err =>
    cases hb
    exact ⟨0, m, rfl, hok⟩
  | state s' =>
    obtain ⟨f, m1, hf, hok1⟩ := hrec m hb hok
    exact ⟨f, m1, hf, hok1⟩
  | skip s' k =>
    simp only [buildPBranch] at hb
    by_cases hk : k ≤ 0
    · rw [if_pos hk] at hb
      cases hb
      exact ⟨0, m, by simp [buildMBranch, hk], hok⟩
    · rw [if_neg hk] at hb
      obtain ⟨f, m1, hf, hok1⟩ := hrec m hb hok
      exact ⟨f, m1, by simp [buildMBranch, hk, hf], hok1⟩

/-- Memo elimination, converse: whenever the memo-free reference build
succeeds, the memoised build succeeds with the same table and root id
(for any coherent starting memo). -/
theorem buildP_to_buildM {S : Type} [DecidableEq S] {sp : CSpec S} :
    ∀ (g : Nat) {s : S} {level : Nat} {nt nt' : NodeTable} {i : NodeID}
      (m : Memo S),
      buildP sp g s level nt = some (nt', i) → MemoOK sp nt m →
      ∃ f m', buildM sp f s level nt m = some (nt', m', i) ∧ MemoOK sp nt' m' := by
  intro g
  induction g with
  | zero => intro s level nt nt' i m h hok; simp [buildP] at h
  | succ g ih =>
    intro s level nt nt' i m h hok
    have horig := h
    rw [buildP_succ] at h
    by_cases hl : level = 0
    · rw [if_pos hl] at h
      have h' := Option.some.inj h
      have h1 : nt = nt' := congrArg Prod.fst h'
      have h3 : (if sp.isValid s then OneNode else ZeroNode) = i :=
        congrArg Prod.snd h'
      subst h1; subst h3; subst hl
      exact ⟨1, m, rfl, hok⟩
    · rw [if_neg hl] at h
      cases hml : memoLookup m s level with
      | some i0 =>
        obtain ⟨f0, hf0⟩ := hok s level i0 hml
        have hdet := buildP_det horig hf0
        have h1 : nt' = nt := congrArg Prod.fst hdet
        have h3 : i = i0 := congrArg Prod.snd hdet
        subst h1; subst h3
        refine ⟨1, m, ?_, hok⟩
        rw [buildM_succ, if_neg hl, hml]
      | none =>
        cases hb1 : buildPBranch sp (buildP sp g) (sp.getChild s level false) level nt with
        | none => rw [hb1] at h; cases h
        | some p1 =>
          obtain ⟨nt1, lo⟩ := p1
          rw [hb1] at h
          dsimp only at h
          cases hb2 : buildPBranch sp (buildP sp g) (sp.getChild s level true) level nt1 with
          | none => rw [hb2] at h; cases h
          | some p2 =>
            obtain ⟨nt2, hi⟩ := p2
            rw [hb2] at h
            dsimp only at h
            have haddEq : nt2.AddNode level lo hi = (nt', i) := Option.some.inj h
            obtain ⟨f1, m1, hM1, hok1⟩ :=
              buildPBranch_to_M (fun mm hh hkk => ih mm hh hkk) m hb1 hok
            obtain ⟨f2, m2, hM2, hok2⟩ :=
              buildPBranch_to_M (fun mm hh hkk => ih mm hh hkk) m1 hb2 hok1
            have hM1' : buildMBranch sp (buildM sp (max f1 f2)) (sp.getChild s level false)
                level nt m = some (nt1, m1, lo) :=
              buildMBranch_congr (fun _ _ _ _ _ hh => buildM_mono (Nat.le_max_left f1 f2) hh) hM1
            have hM2' : buildMBranch sp (buildM sp (max f1 f2)) (sp.getChild s level true)
                level nt1 m1 = some (nt2, m2, hi) :=
              buildMBranch_congr (fun _ _ _ _ _ hh => buildM_mono (Nat.le_max_right f1 f2) hh) hM2
            have hRun : buildM sp (max f1 f2 + 1) s level nt m =
                some (nt', ((s, level), i) :: m2, i) := by
              rw [buildM_succ, if_neg hl, hml]
              dsimp only
              rw [hM1']
              dsimp only
              rw [hM2']
              dsimp only
              rw [haddEq]
            have hext3 : Ext nt2 nt' := by
              have he := AddNode_ext nt2 level lo hi
              rw [haddEq] at he
              exact he
            have hP1 : buildP sp (g + 1) s level nt = some (nt', i) := by
              rw [buildP_succ, if_neg hl, hb1]
              dsimp only
              rw [hb2]
              dsimp only
              rw [haddEq]
            have hPself : buildP sp (g + 1) s level nt' = some (nt', i) :=
              buildP_stable (g + 1) hP1 (Ext.refl nt')
            exact ⟨max f1 f2 + 1, ((s, level), i) :: m2, hRun,
              memoOK_cons (memoOK_ext hok2 hext3) hPself⟩

/-! ### Skip directives versus ordinary expansion (claim C6) -/

/-- Forced-lo collapse, one level: if at level `j` the not-taken branch
keeps the state and the taken branch is a violation, expanding at `j` is
expanding at `j - 1` — the `AddNode` zero-suppression rule absorbs the
would-be node. -/
theorem buildP_forced_step {S : Type} {sp : CSpec S} {s' : S} {j : Nat}
    (hj : j ≠ 0) (hlo : sp.getChild s' j false = .state s')
    (hhi : sp.getChild s' j true = .err) (f : Nat) (nt : NodeTable) :
    buildP sp (f + 1) s' j nt = buildP sp f s' (j - 1) nt := by
  rw [buildP_succ, if_neg hj, hlo, hhi]
  dsimp only [buildPBranch]
  cases hr : buildP sp f s' (j - 1) nt with
  | none => rfl
  | some p =>
    obtain ⟨nt1, lo⟩ := p
    dsimp only
    rw [AddNode_hiZero]

/-- Forced-lo collapse over a whole range of levels. -/
theorem buildP_forced_range {S : Type} {sp : CSpec S} {s' : S} {L' : Nat} :
    ∀ (d f : Nat) (nt : NodeTable),
      (∀ j, L' < j → j ≤ L' + d →
        sp.getChild s' j false = .state s' ∧ sp.getChild s' j true = .err) →
      buildP sp (f + d) s' (L' + d) nt = buildP sp f s' L' nt := by
  intro d
  induction d with
  | zero => intro f nt _; rfl
  | succ d ih =>
    intro f nt hforced
    have hj : L' + d + 1 ≠ 0 := Nat.succ_ne_zero _
    obtain ⟨hlo, hhi⟩ := hforced (L' + d + 1) (Nat.lt_succ_of_le (Nat.le_add_right L' d))
      (Nat.le_refl _)
    have hstep := buildP_forced_step hj hlo hhi (f + d) nt
    have : L' + d + 1 - 1 = L' + d := rfl
    rw [show f + (d + 1) = f + d + 1 from rfl, show L' + (d + 1) = L' + d + 1 from rfl,
      hstep, this]
    exact ih f nt (fun j h1 h2 => hforced j h1 (Nat.le_succ_of_le h2))

/-- Branch-level transfer between two specifications with the same
`IsValid`, generic in the recursive calls. -/
theorem buildPBranch_equiv {S : Type} {sp1 sp2 : CSpec S} {f : Nat}
    (hvalid : sp1.isValid = sp2.isValid)
    (hrec : ∀ {s : S} {l : Nat} {nt : NodeTable} {r},
      buildP sp1 f s l nt = some r → ∃ g, buildP sp2 g s l nt = some r)
    {res : ChildRes S} {level : Nat} {nt : NodeTable} {rb}
    (hb : buildPBranch sp1 (buildP sp1 f) res level nt = some rb) :
    ∃ g, buildPBranch sp2 (buildP sp2 g) res level nt = some rb := by
  cases res with
  | err => exact ⟨0, hb⟩
  | state s' =>
    obtain ⟨g, hg⟩ := hrec hb
    exact ⟨g, hg⟩
  | skip s' k =>
    simp only [buildPBranch] at hb ⊢
    by_cases hk : k ≤ 0
    · rw [if_pos hk] at hb
      refine ⟨0, ?_⟩
      rw [if_pos hk, ← hvalid]
      exact hb
    · rw [if_neg hk] at hb
      obtain ⟨g, hg⟩ := hrec hb
      refine ⟨g, ?_⟩
      rw [if_neg hk]
      exact hg

/-- Core equivalence for claim C6 (amended): replacing one skip directive
`(S', L')` emitted at `(s₀, L, b₀)` by ordinary expansion — the expansion
yielding `S'` again on every not-taken branch of the skipped levels and a
violation on every taken branch — produces the same tables and ids at every
point of the construction. -/
theorem buildP_skip_exp {S : Type} {sp1 sp2 : CSpec S} {s₀ S' : S}
    {L L' : Nat} {b₀ : Bool}
    (hvalid : sp1.isValid = sp2.isValid)
    (hne : ∀ s l b, ¬(s = s₀ ∧ l = L ∧ b = b₀) →
      sp1.getChild s l b = sp2.getChild s l b)
    (hdir1 : sp1.getChild s₀ L b₀ = .skip S' (L' : Int))
    (hdir2 : sp2.getChild s₀ L b₀ = .state S')
    (hL0 : 0 < L') (hLL : L' < L)
    (hforced : ∀ j, L' < j → j < L →
      sp2.getChild S' j false = .state S' ∧ sp2.getChild S' j true = .err) :
    ∀ (f : Nat) {s : S} {level : Nat} {nt : NodeTable} {r},
      buildP sp1 f s level nt = some r → ∃ g, buildP sp2 g s level nt = some r := by
  intro f
  induction f with
  | zero => intro s level nt r h; simp [buildP] at h
  | succ f ih =>
    intro s level nt r h
    rw [buildP_succ] at h
    by_cases hl : level = 0
    · rw [if_pos hl] at h
      refine ⟨1, ?_⟩
      rw [buildP_succ, if_pos hl, ← hvalid]
      exact h
    · rw [if_neg hl] at h
      -- a single branch of sp1 transfers to sp2
      have hbr : ∀ (b : Bool) (nt₀ : NodeTable) {rb},
          buildPBranch sp1 (buildP sp1 f) (sp1.getChild s level b) level nt₀ = some rb →
          ∃ g, buildPBranch sp2 (buildP sp2 g) (sp2.getChild s level b) level nt₀ = some rb := by
        intro b nt₀ rb hb
        by_cases htrig : s = s₀ ∧ level = L ∧ b = b₀
        · obtain ⟨hs, hlev, hbb⟩ := htrig
          have hlev' := hlev.symm
          subst hs; subst hbb; subst hlev'
          rw [hdir1] at hb
          rw [hdir2]
          simp only [buildPBranch] at hb
          have hk : ¬((L' : Int) ≤ 0) := by
            simp only [not_le]
            exact_mod_cast hL0
          rw [if_neg hk] at hb
          have htn : ((L' : Int)).toNat = L' := Int.toNat_ofNat _
          rw [htn] at hb
          obtain ⟨g, hg⟩ := ih hb
          have hd : L' + (L - 1 - L') = L - 1 := by omega
          have hrange : buildP sp2 (g + (L - 1 - L')) S' (L' + (L - 1 - L')) nt₀ =
              buildP sp2 g S' L' nt₀ :=
            buildP_forced_range (L - 1 - L') g nt₀ (fun j h1 h2 => hforced j h1 (by omega))
          rw [hd] at hrange
          refine ⟨g + (L - 1 - L'), ?_⟩
          simp only [buildPBranch]
          rw [show L - 1 = L - 1 from rfl]
          rw [hrange]
          exact hg
        · rw [← hne s level b htrig]
          exact buildPBranch_equiv hvalid (fun hh => ih hh) hb
      cases hb1 : buildPBranch sp1 (buildP sp1 f) (sp1.getChild s level false) level nt with
      | none => rw [hb1] at h; cases h
      | some p1 =>
        obtain ⟨nt1, lo⟩ := p1
        rw [hb1] at h
        dsimp only at h
        cases hb2 : buildPBranch sp1 (buildP sp1 f) (sp1.getChild s level true) level nt1 with
        | none => rw [hb2] at h; cases h
        | some p2 =>
          obtain ⟨nt2, hi⟩ := p2
          rw [hb2] at h
          dsimp only at h
          obtain ⟨g1, hg1⟩ := hbr false nt hb1
          obtain ⟨g2, hg2⟩ := hbr true nt1 hb2
          refine ⟨max g1 g2 + 1, ?_⟩
          rw [buildP_succ, if_neg hl]
          rw [buildPBranch_congr (fun _ _ _ _ hh =>
            buildP_mono (Nat.le_max_left g1 g2) hh) hg1]
          dsimp only
          rw [buildPBranch_congr (fun _ _ _ _ hh =>
            buildP_mono (Nat.le_max_right g1 g2) hh) hg2]
          exact h

/-! ### Counting: stability and characterisation lemmas -/

/-- `getD` reads in the left part of an append. -/
theorem getD_append_left (l t : List Node) (d : Node) {j : Nat}
    (h : j < l.length) : (l ++ t).getD j d = l.getD j d := by
  rw [List.getD_eq_getElem?_getD, List.getElem?_append, if_pos h,
    ← List.getD_eq_getElem?_getD]

/-- `getD` reads the element just appended. -/
theorem getD_append_self (l : List Node) (n d : Node) :
    (l ++ [n]).getD l.length d = n := by
  rw [List.getD_eq_getElem?_getD, List.getElem?_append,
    if_neg (lt_irrefl l.length)]
  simp

/-- Reading a stored node back: id `j + 3` yields position `j`. -/
theorem GetNode_at (nt : NodeTable) {j : Nat} (hj : j < nt.stored.length) :
    nt.GetNode (j + 3) = .ok (nt.stored.getD j ⟨0, NullNode, NullNode⟩) := by
  unfold NodeTable.GetNode
  have hc1 : ¬(j + 3 = NullNode ∨ 3 + nt.stored.length ≤ j + 3) := by
    unfold NullNode
    omega
  have hc2 : ¬(j + 3 = ZeroNode ∨ j + 3 = OneNode) := by
    unfold ZeroNode OneNode
    omega
  rw [if_neg hc1, if_neg hc2]
  rw [show j + 3 - 3 = j from rfl]

/-- A successful node read survives table extension. -/
theorem GetNode_stable {nt X : NodeTable} {id : Nat} {n : Node}
    (hx : Ext nt X) (h : nt.GetNode id = .ok n) : X.GetNode id = .ok n := by
  obtain ⟨t, ht⟩ := hx
  have hlen : X.stored.length = nt.stored.length + t.length := by rw [ht]; simp
  unfold NodeTable.GetNode at h ⊢
  by_cases h0 : id = NullNode ∨ 3 + nt.stored.length ≤ id
  · rw [if_pos h0] at h; cases h
  · rw [if_neg h0] at h
    push_neg at h0
    obtain ⟨hnull, hbound⟩ := h0
    have hc : ¬(id = NullNode ∨ 3 + X.stored.length ≤ id) := by
      push_neg
      refine ⟨hnull, ?_⟩
      have hb : (id : Nat) < 3 + nt.stored.length := hbound
      have hg : (id : Nat) < 3 + X.stored.length := by omega
      exact hg
    rw [if_neg hc]
    by_cases hterm : id = ZeroNode ∨ id = OneNode
    · rw [if_pos hterm] at h
      rw [if_pos hterm]
      exact h
    · rw [if_neg hterm] at h
      rw [if_neg hterm]
      have h3 : 3 ≤ id := by
        rcases Nat.lt_or_ge id 3 with hlt3 | hge
        · interval_cases id
          · exact absurd rfl hnull
          · exact absurd (Or.inl rfl) hterm
          · exact absurd (Or.inr rfl) hterm
        · exact hge
      have hlt : id - 3 < nt.stored.length := by omega
      rw [ht, getD_append_left _ _ _ hlt]
      exact h

/-- Characterisation of a dedup-index hit. -/
theorem findIdx?_eq_some_get {l : List Node} {p : Node → Bool} {j : Nat}
    (h : l.findIdx? p = some j) :
    ∃ hj : j < l.length, p (l.get ⟨j, hj⟩) = true := by
  induction l generalizing j with
  | nil => simp [List.findIdx?] at h
  | cons a t ih =>
    rw [List.findIdx?_cons, List.findIdx?_succ] at h
    by_cases ha : p a
    · simp only [ha, if_true] at h
      cases h
      exact ⟨Nat.succ_pos _, ha⟩
    · simp only [ha, if_false] at h
      cases hfi : t.findIdx? p with
      | none => rw [hfi] at h; cases h
      | some j' =>
        rw [hfi] at h
        simp only [Option.map_some'] at h
        cases h
        obtain ⟨hj', hp⟩ := ih hfi
        exact ⟨Nat.succ_lt_succ hj', hp⟩

/-- After a non-suppressed insertion, the returned id reads back as the
inserted triple. -/
theorem AddNode_getNode {nt nt' : NodeTable} {level lo hi id : Nat}
    (hz : hi ≠ ZeroNode) (h : nt.AddNode level lo hi = (nt', id)) :
    3 ≤ id ∧ nt'.GetNode id = .ok ⟨level, lo, hi⟩ := by
  unfold NodeTable.AddNode at h
  simp only [hz, if_false] at h
  cases hfind : nt.stored.findIdx? (fun x => x = (⟨level, lo, hi⟩ : Node)) with
  | some j =>
    rw [hfind] at h
    injection h with he1 he2
    obtain ⟨hj, hp⟩ := findIdx?_eq_some_get hfind
    have hget : nt.stored.getD j ⟨0, NullNode, NullNode⟩ = ⟨level, lo, hi⟩ := by
      rw [List.getD_eq_getElem?_getD, List.getElem?_eq_getElem hj]
      simpa [List.get_eq_getElem] using hp
    subst he1
    subst he2
    exact ⟨Nat.le_add_left 3 j, by rw [GetNode_at nt hj, hget]⟩
  | none =>
    rw [hfind] at h
    injection h with he1 he2
    subst he1
    subst he2
    have hj : nt.stored.length <
        (NodeTable.mk (nt.stored ++ [(⟨level, lo, hi⟩ : Node)])).stored.length := by
      simp
    refine ⟨Nat.le_add_left 3 _, ?_⟩
    rw [GetNode_at _ hj]
    exact congrArg Except.ok (getD_append_self nt.stored _ _)

theorem countPN_mono_succ (nt : NodeTable) :
    ∀ (f : Nat) {id : NodeID} {c : Nat},
      countPN nt f id = some c → countPN nt (f + 1) id = some c := by
  intro f
  induction f with
  | zero => intro id c h; simp [countPN] at h
  | succ f ih =>
    intro id c h
    unfold countPN at h ⊢
    by_cases h1 : id = ZeroNode
    · simpa [h1] using h
    · by_cases h2 : id = OneNode
      · simpa [h1, h2] using h
      · simp only [h1, h2, if_false] at h ⊢
        cases hg : nt.GetNode id with
        | error e => rw [hg] at h; cases h
        | ok n =>
          rw [hg] at h
          dsimp only at h ⊢
          cases hlo : countPN nt f n.lo with
          | none => rw [hlo] at h; cases h
          | some clo =>
            rw [hlo] at h
            rw [ih hlo]
            dsimp only at h ⊢
            cases hhi : countPN nt f n.hi with
            | none => rw [hhi] at h; cases h
            | some chi =>
              rw [hhi] at h
              rw [ih hhi]
              exact h

theorem countPN_mono {nt : NodeTable} {f g : Nat} (hfg : f ≤ g) {id : NodeID}
    {c : Nat} (h : countPN nt f id = some c) : countPN nt g id = some c := by
  induction g with
  | zero => exact Nat.le_zero.1 hfg ▸ h
  | succ g ih =>
    rcases Nat.lt_or_ge f (g + 1) with hlt | hge
    · exact countPN_mono_succ nt g (ih (Nat.lt_succ_iff.1 hlt))
    · have : f = g + 1 := Nat.le_antisymm hfg hge
      exact this ▸ h

theorem countPN_det {nt : NodeTable} {f g : Nat} {id : NodeID} {c c' : Nat}
    (h : countPN nt f id = some c) (h' : countPN nt g id = some c') : c = c' := by
  have h1 := countPN_mono (Nat.le_max_left f g) h
  have h2 := countPN_mono (Nat.le_max_right f g) h'
  rw [h1] at h2
  exact Option.some.inj h2

/-- Pure counting is stable under table extension. -/
theorem countPN_stable {nt X : NodeTable} (hx : Ext nt X) :
    ∀ (f : Nat) {id : NodeID} {c : Nat},
      countPN nt f id = some c → countPN X f id = some c := by
  intro f
  induction f with
  | zero => intro id c h; simp [countPN] at h
  | succ f ih =>
    intro id c h
    unfold countPN at h ⊢
    by_cases h1 : id = ZeroNode
    · simpa [h1] using h
    · by_cases h2 : id = OneNode
      · simpa [h1, h2] using h
      · simp only [h1, h2, if_false] at h ⊢
        cases hg : nt.GetNode id with
        | error e => rw [hg] at h; cases h
        | ok n =>
          rw [hg] at h
          rw [GetNode_stable hx hg]
          dsimp only at h ⊢
          cases hlo : countPN nt f n.lo with
          | none => rw [hlo] at h; cases h
          | some clo =>
            rw [hlo] at h
            rw [ih hlo]
            dsimp only at h ⊢
            cases hhi : countPN nt f n.hi with
            | none => rw [hhi] at h; cases h
            | some chi =>
              rw [hhi] at h
              rw [ih hhi]
              exact h

theorem countPW_mono_succ (nt : NodeTable) :
    ∀ (f : Nat) {id : Nat} {c : Int},
      countPW nt f id = some c → countPW nt (f + 1) id = some c := by
  intro f
  induction f with
  | zero => intro id c h; simp [countPW] at h
  | succ f ih =>
    intro id c h
    unfold countPW at h ⊢
    by_cases h1 : id = ZeroNode
    · simpa [h1] using h
    · by_cases h2 : id = OneNode
      · simpa [h1, h2] using h
      · simp only [h1, h2, if_false] at h ⊢
        cases hg : nt.GetNode id with
        | error e => rw [hg] at h; cases h
        | ok n =>
          rw [hg] at h
          dsimp only at h ⊢
          cases hlo : countPW nt f n.lo with
          | none => rw [hlo] at h; cases h
          | some clo =>
            rw [hlo] at h
            rw [ih hlo]
            dsimp only at h ⊢
            cases hhi : countPW nt f n.hi with
            | none => rw [hhi] at h; cases h
            | some chi =>
              rw [hhi] at h
              rw [ih hhi]
              exact h

theorem countPW_mono {nt : NodeTable} {f g : Nat} (hfg : f ≤ g) {id : Nat}
    {c : Int} (h : countPW nt f id = some c) : countPW nt g id = some c := by
  induction g with
  | zero => exact Nat.le_zero.1 hfg ▸ h
  | succ g ih =>
    rcases Nat.lt_or_ge f (g + 1) with hlt | hge
    · exact countPW_mono_succ nt g (ih (Nat.lt_succ_iff.1 hlt))
    · have : f = g + 1 := Nat.le_antisymm hfg hge
      exact this ▸ h

theorem countPW_det {nt : NodeTable} {f g : Nat} {id : Nat} {c c' : Int}
    (h : countPW nt f id = some c) (h' : countPW nt g id = some c') : c = c' := by
  have h1 := countPW_mono (Nat.le_max_left f g) h
  have h2 := countPW_mono (Nat.le_max_right f g) h'
  rw [h1] at h2
  exact Option.some.inj h2

theorem wrap64_eq_self {x : Int} (h0 : 0 ≤ x) (h1 : x < 2 ^ 63) :
    wrap64 x = x := by
  unfold wrap64
  rw [Int.emod_eq_of_lt (by omega) (by omega)]
  omega

/-- Below the `int64` overflow threshold, the wrapping count agrees with
the exact count (every count along the way is bounded by its ancestors'). -/
theorem countPN_to_PW (nt : NodeTable) :
    ∀ (f : Nat) {id : Nat} {c : Nat},
      countPN nt f id = some c → c < 2 ^ 63 → countPW nt f id = some (c : Int) := by
  intro f
  induction f with
  | zero => intro id c h _; simp [countPN] at h
  | succ f ih =>
    intro id c h hc
    unfold countPN at h
    unfold countPW
    by_cases h1 : id = ZeroNode
    · rw [if_pos h1] at h
      cases h
      simp [h1]
    · by_cases h2 : id = OneNode
      · rw [if_neg h1, if_pos h2] at h
        cases h
        rw [if_neg h1, if_pos h2]
        norm_num
      · simp only [h1, h2, if_false] at h ⊢
        cases hg : nt.GetNode id with
        | error e => rw [hg] at h; cases h
        | ok n =>
          rw [hg] at h
          dsimp only at h ⊢
          cases hlo : countPN nt f n.lo with
          | none => rw [hlo] at h; cases h
          | some clo =>
            rw [hlo] at h
            dsimp only at h
            cases hhi : countPN nt f n.hi with
            | none => rw [hhi] at h; cases h
            | some chi =>
              rw [hhi] at h
              dsimp only at h
              have hsum : clo + chi = c := Option.some.inj h
              have hclo : clo < 2 ^ 63 := by omega
              have hchi : chi < 2 ^ 63 := by omega
              rw [ih hlo hclo]
              dsimp only
              rw [ih hhi hchi]
              dsimp only
              have hcast : (clo : Int) + (chi : Int) = ((c : Nat) : Int) := by
                rw [← hsum]
                push_cast
                ring
              rw [hcast, wrap64_eq_self (by positivity) (by exact_mod_cast hc)]

/-- Count-memo coherence. -/
def CMemoOK (nt : NodeTable) (m : CMemo) : Prop :=
  ∀ id c, cmemoLookup m id = some c → ∃ f, countPW nt f id = some c

theorem cmemoOK_nil (nt : NodeTable) : CMemoOK nt [] := by
  intro id c h
  simp [cmemoLookup, List.find?] at h

theorem cmemoLookup_cons {m : CMemo} {id₀ : NodeID} {c₀ : Int} (id : NodeID) :
    cmemoLookup ((id₀, c₀) :: m) id =
      if id₀ = id then some c₀ else cmemoLookup m id := by
  simp only [cmemoLookup, List.find?]
  by_cases he : id₀ = id <;> simp [he]

theorem cmemoOK_cons {nt : NodeTable} {m : CMemo} (h : CMemoOK nt m)
    {id : NodeID} {c : Int} {g : Nat} (hb : countPW nt g id = some c) :
    CMemoOK nt ((id, c) :: m) := by
  intro id' c' hl
  rw [cmemoLookup_cons] at hl
  by_cases he : id = id'
  · rw [if_pos he] at hl
    cases hl
    exact ⟨g, he ▸ hb⟩
  · rw [if_neg he] at hl
    exact h id' c' hl

/-- The memoised count evaluator computes the pure wrapping count. -/
theorem countM_to_countPW (nt : NodeTable) :
    ∀ (f : Nat) {id : NodeID} {m m' : CMemo} {c : Int},
      countM nt f id m = some (.ok (m', c)) → CMemoOK nt m →
      (∃ g, countPW nt g id = some c) ∧ CMemoOK nt m' := by
  intro f
  induction f with
  | zero => intro id m m' c h hok; simp [countM] at h
  | succ f ih =>
    intro id m m' c h hok
    unfold countM at h
    cases hml : cmemoLookup m id with
    | some c0 =>
      rw [hml] at h
      have h' := Except.ok.inj (Option.some.inj h)
      have h1 : m = m' := congrArg Prod.fst h'
      have h2 : c0 = c := congrArg Prod.snd h'
      subst h1; subst h2
      exact ⟨hok id c0 hml, hok⟩
    | none =>
      rw [hml] at h
      dsimp only at h
      by_cases h1 : id = ZeroNode
      · rw [if_pos h1] at h
        have h' := Except.ok.inj (Option.some.inj h)
        have hm : (id, (0 : Int)) :: m = m' := congrArg Prod.fst h'
        have hc : (0 : Int) = c := congrArg Prod.snd h'
        subst hc
        have hz : countPW nt 1 id = some 0 := by
          unfold countPW
          rw [if_pos h1]
        exact ⟨⟨1, hz⟩, hm ▸ cmemoOK_cons hok hz⟩
      · rw [if_neg h1] at h
        by_cases h2 : id = OneNode
        · rw [if_pos h2] at h
          have h' := Except.ok.inj (Option.some.inj h)
          have hm : (id, (1 : Int)) :: m = m' := congrArg Prod.fst h'
          have hc : (1 : Int) = c := congrArg Prod.snd h'
          subst hc
          have hz : countPW nt 1 id = some 1 := by
            unfold countPW
            rw [if_neg h1, if_pos h2]
          exact ⟨⟨1, hz⟩, hm ▸ cmemoOK_cons hok hz⟩
        · rw [if_neg h2] at h
          cases hg : nt.GetNode id with
          | error e => rw [hg] at h; cases h
          | ok n =>
            rw [hg] at h
            dsimp only at h
            cases hlo : countM nt f n.lo m with
            | none => rw [hlo] at h; cases h
            | some r1 =>
              rw [hlo] at h
              cases r1 with
              | error e => cases h
              | ok p1 =>
                obtain ⟨m1, clo⟩ := p1
                dsimp only at h
                cases hhi : countM nt f n.hi m1 with
                | none => rw [hhi] at h; cases h
                | some r2 =>
                  rw [hhi] at h
                  cases r2 with
                  | error e => cases h
                  | ok p2 =>
                    obtain ⟨m2, chi⟩ := p2
                    dsimp only at h
                    have h' := Except.ok.inj (Option.some.inj h)
                    have hm : (id, wrap64 (clo + chi)) :: m2 = m' := congrArg Prod.fst h'
                    have hc : wrap64 (clo + chi) = c := congrArg Prod.snd h'
                    obtain ⟨⟨g1, hg1⟩, hok1⟩ := ih hlo hok
                    obtain ⟨⟨g2, hg2⟩, hok2⟩ := ih hhi hok1
                    have hPW : countPW nt (max g1 g2 + 1) id = some (wrap64 (clo + chi)) := by
                      unfold countPW
                      rw [if_neg h1, if_neg h2, hg]
                      dsimp only
                      rw [countPW_mono (Nat.le_max_left g1 g2) hg1]
                      dsimp only
                      rw [countPW_mono (Nat.le_max_right g1 g2) hg2]
                    subst hc
                    exact ⟨⟨max g1 g2 + 1, hPW⟩, hm ▸ cmemoOK_cons hok2 hPW⟩

theorem countM_mono_succ (nt : NodeTable) :
    ∀ (f : Nat) {id : NodeID} {m : CMemo} {r},
      countM nt f id m = some r → countM nt (f + 1) id m = some r := by
  intro f
  induction f with
  | zero => intro id m r h; simp [countM] at h
  | succ f ih =>
    intro id m r h
    unfold countM at h ⊢
    cases hml : cmemoLookup m id with
    | some c0 => rw [hml] at h; exact h
    | none =>
      rw [hml] at h
      dsimp only at h ⊢
      by_cases h1 : id = ZeroNode
      · simpa [h1] using h
      · by_cases h2 : id = OneNode
        · simpa [h1, h2] using h
        · simp only [h1, h2, if_false] at h ⊢
          cases hg : nt.GetNode id with
          | error e => rw [hg] at h; exact h
          | ok n =>
            rw [hg] at h
            dsimp only at h ⊢
            cases hlo : countM nt f n.lo m with
            | none => rw [hlo] at h; cases h
            | some r1 =>
              rw [hlo] at h
              rw [ih hlo]
              cases r1 with
              | error e => exact h
              | ok p1 =>
                obtain ⟨m1, clo⟩ := p1
                dsimp only at h ⊢
                cases hhi : countM nt f n.hi m1 with
                | none => rw [hhi] at h; cases h
                | some r2 =>
                  rw [hhi] at h
                  rw [ih hhi]
                  exact h

theorem countM_mono {nt : NodeTable} {f g : Nat} (hfg : f ≤ g) {id : NodeID}
    {m : CMemo} {r} (h : countM nt f id m = some r) : countM nt g id m = some r := by
  induction g with
  | zero => exact Nat.le_zero.1 hfg ▸ h
  | succ g ih =>
    rcases Nat.lt_or_ge f (g + 1) with hlt | hge
    · exact countM_mono_succ nt g (ih (Nat.lt_succ_iff.1 hlt))
    · have : f = g + 1 := Nat.le_antisymm hfg hge
      exact this ▸ h

/-- Converse: a defined pure wrapping count makes the memoised evaluator
succeed with that value. -/
theorem countPW_to_countM (nt : NodeTable) :
    ∀ (g : Nat) {id : NodeID} {c : Int} (m : CMemo),
      countPW nt g id = some c → CMemoOK nt m →
      ∃ f m', countM nt f id m = some (.ok (m', c)) ∧ CMemoOK nt m' := by
  intro g
  induction g with
  | zero => intro id c m h hok; simp [countPW] at h
  | succ g ih =>
    intro id c m h hok
    have horig := h
    unfold countPW at h
    cases hml : cmemoLookup m id with
    | some c0 =>
      obtain ⟨f0, hf0⟩ := hok id c0 hml
      have hdet : c = c0 := countPW_det horig hf0
      subst hdet
      refine ⟨1, m, ?_, hok⟩
      unfold countM
      rw [hml]
    | none =>
      by_cases h1 : id = ZeroNode
      · rw [if_pos h1] at h
        cases h
        refine ⟨1, (id, 0) :: m, ?_, cmemoOK_cons hok horig⟩
        unfold countM
        rw [hml]
        dsimp only
        rw [if_pos h1]
      · rw [if_neg h1] at h
        by_cases h2 : id = OneNode
        · rw [if_pos h2] at h
          cases h
          refine ⟨1, (id, 1) :: m, ?_, cmemoOK_cons hok horig⟩
          unfold countM
          rw [hml]
          dsimp only
          rw [if_neg h1, if_pos h2]
        · rw [if_neg h2] at h
          cases hg : nt.GetNode id with
          | error e => rw [hg] at h; cases h
          | ok n =>
            rw [hg] at h
            dsimp only at h
            cases hlo : countPW nt g n.lo with
            | none => rw [hlo] at h; cases h
            | some clo =>
              rw [hlo] at h
              dsimp only at h
              cases hhi : countPW nt g n.hi with
              | none => rw [hhi] at h; cases h
              | some chi =>
                rw [hhi] at h
                dsimp only at h
                cases h
                obtain ⟨f1, m1, hM1, hok1⟩ := ih m hlo hok
                obtain ⟨f2, m2, hM2, hok2⟩ := ih m1 hhi hok1
                refine ⟨max f1 f2 + 1, (id, wrap64 (clo + chi)) :: m2, ?_,
                  cmemoOK_cons hok2 horig⟩
                unfold countM
                rw [hml]
                dsimp only
                rw [if_neg h1, if_neg h2, hg]
                dsimp only
                rw [countM_mono (Nat.le_max_left f1 f2) hM1]
                dsimp only
                rw [countM_mono (Nat.le_max_right f1 f2) hM2]

theorem countPN_zeroNode (nt : NodeTable) (f : Nat) :
    countPN nt (f + 1) ZeroNode = some 0 := by
  unfold countPN
  rw [if_pos rfl]

theorem countPN_oneNode (nt : NodeTable) (f : Nat) :
    countPN nt (f + 1) OneNode = some 1 := by
  unfold countPN
  rw [if_neg (by decide), if_pos rfl]

theorem countPN_zeroNode_eq {nt : NodeTable} {F : Nat} {c : Nat}
    (h : countPN nt F ZeroNode = some c) : c = 0 := by
  cases F with
  | zero => simp [countPN] at h
  | succ F => exact (Option.some.inj ((countPN_zeroNode nt F) ▸ h)).symm

/-- Branch-level: a built branch's id counts the accepted subsets of that
branch. -/
theorem buildPBranch_count {S : Type} {sp : CSpec S} {f : Nat}
    (hrec : ∀ {s : S} {level : Nat} {nt nt' : NodeTable} {i : NodeID},
      buildP sp f s level nt = some (nt', i) →
      ∃ c, acceptedCountF sp f s level = some c ∧ ∃ F, countPN nt' F i = some c)
    {res : ChildRes S} {level : Nat} {nt nt1 : NodeTable} {lo : NodeID}
    (hb : buildPBranch sp (buildP sp f) res level nt = some (nt1, lo)) :
    ∃ c, accBranch sp (acceptedCountF sp f) res level = some c ∧
      ∃ F, countPN nt1 F lo = some c := by
  cases res with
  | err =>
    cases hb
    exact ⟨0, rfl, 1, countPN_zeroNode nt 0⟩
  | state s' => exact hrec hb
  | skip s' k =>
    simp only [buildPBranch, accBranch] at hb ⊢
    by_cases hk : k ≤ 0
    · rw [if_pos hk] at hb
      cases hb
      rw [if_pos hk]
      by_cases hv : sp.isValid s'
      · exact ⟨1, by rw [if_pos hv], 1, by rw [if_pos hv]; exact countPN_oneNode nt 0⟩
      · exact ⟨0, by rw [if_neg hv], 1, by rw [if_neg hv]; exact countPN_zeroNode nt 0⟩
    · rw [if_neg hk] at hb
      rw [if_neg hk]
      exact hrec hb

/-- Semantic correctness of construction: the id returned by the reference
build counts, in the produced table, exactly the subsets the specification
accepts from that state and level. -/
theorem buildP_count {S : Type} {sp : CSpec S} :
    ∀ (f : Nat) {s : S} {level : Nat} {nt nt' : NodeTable} {i : NodeID},
      buildP sp f s level nt = some (nt', i) →
      ∃ c, acceptedCountF sp f s level = some c ∧
        ∃ F, countPN nt' F i = some c := by
  intro f
  induction f with
  | zero => intro s level nt nt' i h; simp [buildP] at h
  | succ f ih =>
    intro s level nt nt' i h
    rw [buildP_succ] at h
    by_cases hl : level = 0
    · rw [if_pos hl] at h
      have h' := Option.some.inj h
      have h1 : nt = nt' := congrArg Prod.fst h'
      have h3 : (if sp.isValid s then OneNode else ZeroNode) = i := congrArg Prod.snd h'
      subst h1; subst h3
      rw [acceptedCountF_succ, if_pos hl]
      by_cases hv : sp.isValid s
      · exact ⟨1, by rw [if_pos hv], 1, by rw [if_pos hv]; exact countPN_oneNode nt 0⟩
      · exact ⟨0, by rw [if_neg hv], 1, by rw [if_neg hv]; exact countPN_zeroNode nt 0⟩
    · rw [if_neg hl] at h
      cases hb1 : buildPBranch sp (buildP sp f) (sp.getChild s level false) level nt with
      | none => rw [hb1] at h; cases h
      | some p1 =>
        obtain ⟨nt1, lo⟩ := p1
        rw [hb1] at h
        dsimp only at h
        cases hb2 : buildPBranch sp (buildP sp f) (sp.getChild s level true) level nt1 with
        | none => rw [hb2] at h; cases h
        | some p2 =>
          obtain ⟨nt2, hi⟩ := p2
          rw [hb2] at h
          dsimp only at h
          have hAdd : nt2.AddNode level lo hi = (nt', i) := Option.some.inj h
          obtain ⟨c1, hacc1, F1, hcnt1⟩ := buildPBranch_count (fun hh => ih hh) hb1
          obtain ⟨c2, hacc2, F2, hcnt2⟩ := buildPBranch_count (fun hh => ih hh) hb2
          have hext2 : Ext nt1 nt2 := buildPBranch_ext (fun _ _ _ _ _ hh => buildP_ext f hh) hb2
          have hacc : acceptedCountF sp (f + 1) s level = some (c1 + c2) := by
            rw [acceptedCountF_succ, if_neg hl, hacc1]
            dsimp only
            rw [hacc2]
          refine ⟨c1 + c2, hacc, ?_⟩
          by_cases hz : hi = ZeroNode
          · subst hz
            rw [AddNode_hiZero] at hAdd
            have h1 : nt2 = nt' := congrArg Prod.fst hAdd
            have h3 : lo = i := congrArg Prod.snd hAdd
            subst h1; subst h3
            have hc2 : c2 = 0 := countPN_zeroNode_eq hcnt2
            subst hc2
            exact ⟨F1, by rw [Nat.add_zero]; exact countPN_stable hext2 F1 hcnt1⟩
          · obtain ⟨hge3, hread⟩ := AddNode_getNode hz hAdd
            have hext3 : Ext nt2 nt' := by
              have he := AddNode_ext nt2 level lo hi
              rw [hAdd] at he
              exact he
            have hcnt1' : countPN nt' (max F1 F2) lo = some c1 :=
              countPN_mono (Nat.le_max_left F1 F2)
                (countPN_stable (hext2.trans hext3) F1 hcnt1)
            have hcnt2' : countPN nt' (max F1 F2) hi = some c2 :=
              countPN_mono (Nat.le_max_right F1 F2) (countPN_stable hext3 F2 hcnt2)
            have hne0 : i ≠ ZeroNode := by
              intro hcontra
              rw [hcontra] at hge3
              exact absurd hge3 (by decide)
            have hne1 : i ≠ OneNode := by
              intro hcontra
              rw [hcontra] at hge3
              exact absurd hge3 (by decide)
            refine ⟨max F1 F2 + 1, ?_⟩
            unfold countPN
            rw [if_neg hne0, if_neg hne1, hread]
            dsimp only
            rw [hcnt1']
            dsimp only
            rw [hcnt2']

/-! ### Sorting lemmas for the k-best evaluator -/

theorem insertNat_perm (x : Nat) (l : List Nat) :
    (sortNat.insertNat x l).Perm (x :: l) := by
  induction l with
  | nil => exact List.Perm.refl _
  | cons y ys ih =>
    unfold sortNat.insertNat
    by_cases hxy : x ≤ y
    · rw [if_pos hxy]
    · rw [if_neg hxy]
      exact (List.Perm.cons y ih).trans (List.Perm.swap x y ys)

theorem sortNat_perm (l : List Nat) : (sortNat l).Perm l := by
  induction l with
  | nil => exact List.Perm.refl _
  | cons x xs ih =>
    unfold sortNat
    exact (insertNat_perm x (sortNat xs)).trans (List.Perm.cons x ih)

theorem mem_sortNat {v : Nat} {l : List Nat} : v ∈ sortNat l ↔ v ∈ l :=
  (sortNat_perm l).mem_iff

theorem insertCost_perm (x : Solution) (l : List Solution) :
    (sortByCost.insertCost x l).Perm (x :: l) := by
  induction l with
  | nil => exact List.Perm.refl _
  | cons y ys ih =>
    unfold sortByCost.insertCost
    by_cases hxy : x.cost ≤ y.cost
    · rw [if_pos hxy]
    · rw [if_neg hxy]
      exact (List.Perm.cons y ih).trans (List.Perm.swap x y ys)

theorem sortByCost_perm (l : List Solution) : (sortByCost l).Perm l := by
  induction l with
  | nil => exact List.Perm.refl _
  | cons x xs ih =>
    unfold sortByCost
    exact (insertCost_perm x (sortByCost xs)).trans (List.Perm.cons x ih)

/-- The cost order used by the sort. -/
def costLE (a b : Solution) : Prop := a.cost ≤ b.cost

theorem insertCost_sorted {x : Solution} {l : List Solution}
    (h : List.Pairwise costLE l) :
    List.Pairwise costLE (sortByCost.insertCost x l) := by
  induction l with
  | nil => exact List.pairwise_singleton _ _
  | cons y ys ih =>
    unfold sortByCost.insertCost
    rw [List.pairwise_cons] at h
    obtain ⟨hy, hys⟩ := h
    by_cases hxy : x.cost ≤ y.cost
    · rw [if_pos hxy]
      rw [List.pairwise_cons]
      refine ⟨?_, List.pairwise_cons.2 ⟨hy, hys⟩⟩
      intro b hb
      rcases List.mem_cons.1 hb with hb | hb
      · subst hb; exact hxy
      · exact le_trans hxy (hy b hb)
    · rw [if_neg hxy]
      rw [List.pairwise_cons]
      refine ⟨?_, ih hys⟩
      intro b hb
      rcases (insertCost_perm x ys).mem_iff.1 hb with hb'
      rcases List.mem_cons.1 hb' with hb' | hb'
      · subst hb'
        exact le_of_not_le hxy
      · exact hy b hb'

theorem sortByCost_sorted (l : List Solution) :
    List.Pairwise costLE (sortByCost l) := by
  induction l with
  | nil => exact List.Pairwise.nil
  | cons x xs ih =>
    unfold sortByCost
    exact insertCost_sorted ih

/-- The head of the sorted list is a lower bound for every enumerated
solution. -/
theorem sortByCost_head_min {l : List Solution} {x : Solution} {rest : List Solution}
    (he : sortByCost l = x :: rest) {y : Solution} (hy : y ∈ l) :
    x.cost ≤ y.cost := by
  have hmem : y ∈ sortByCost l := (sortByCost_perm l).mem_iff.2 hy
  rw [he] at hmem
  rcases List.mem_cons.1 hmem with hb | hb
  · subst hb; exact le_refl _
  · have hs := sortByCost_sorted l
    rw [he, List.pairwise_cons] at hs
    exact hs.1 y hb

/-! ### Enumeration: cost law and variable bounds -/

/-- The cost the evaluator attributes to a variable list: each in-range
index contributes its cost entry, others contribute nothing (the evaluator
guards with `0 < Level < len(costs)`). -/
def costOf (costs : List ℚ) (l : List Nat) : ℚ :=
  (l.map (fun i => if 0 < i ∧ i < costs.length then costs.getD i 0 else 0)).sum

theorem costOf_append (costs : List ℚ) (l1 l2 : List Nat) :
    costOf costs (l1 ++ l2) = costOf costs l1 + costOf costs l2 := by
  unfold costOf
  rw [List.map_append, List.sum_append]

theorem costOf_perm (costs : List ℚ) {l l' : List Nat} (h : l.Perm l') :
    costOf costs l = costOf costs l' :=
  List.Perm.sum_eq (List.Perm.map _ h)

theorem GetNode_ok_mem {nt : NodeTable} {id : Nat} {n : Node}
    (h : nt.GetNode id = .ok n) (h1 : id ≠ ZeroNode) (h2 : id ≠ OneNode) :
    n ∈ nt.stored := by
  unfold NodeTable.GetNode at h
  by_cases h0 : id = NullNode ∨ 3 + nt.stored.length ≤ id
  · rw [if_pos h0] at h; cases h
  · rw [if_neg h0, if_neg (by tauto)] at h
    push_neg at h0
    obtain ⟨hnull, hbound⟩ := h0
    have h3 : 3 ≤ id := by
      rcases Nat.lt_or_ge id 3 with hlt3 | hge
      · interval_cases id
        · exact absurd rfl hnull
        · exact absurd rfl h1
        · exact absurd rfl h2
      · exact hge
    have hlt : id - 3 < nt.stored.length := by omega
    have := Option.some.inj (congrArg (fun e => match e with
      | Except.ok v => some v
      | Except.error _ => none) h)
    rw [← this]
    rw [List.getD_eq_getElem?_getD, List.getElem?_eq_getElem hlt]
    exact List.getElem_mem _

/-- Cost invariant of the enumerator: with the running cost equal to the
cost of the running path, every produced solution's cost is the cost of its
variable list. -/
theorem enumSol_cost (costs : List ℚ) (nt : NodeTable) :
    ∀ (f : Nat) {id : NodeID} {curV : List Nat} {curC : ℚ} {sols : List Solution},
      enumSol costs nt f id curV curC = some (.ok sols) →
      curC = costOf costs curV →
      ∀ sol ∈ sols, sol.cost = costOf costs sol.vars := by
  intro f
  induction f with
  | zero => intro id curV curC sols h _; simp [enumSol] at h
  | succ f ih =>
    intro id curV curC sols h hC
    unfold enumSol at h
    by_cases h1 : id = ZeroNode
    · rw [if_pos h1] at h
      have := Except.ok.inj (Option.some.inj h)
      subst this
      intro sol hm
      cases hm
    · rw [if_neg h1] at h
      by_cases h2 : id = OneNode
      · rw [if_pos h2] at h
        have := Except.ok.inj (Option.some.inj h)
        subst this
        intro sol hm
        rcases List.mem_singleton.1 hm with rfl
        dsimp only
        rw [hC]
        exact (costOf_perm costs (sortNat_perm curV)).symm
      · rw [if_neg h2] at h
        cases hg : nt.GetNode id with
        | error e => rw [hg] at h; cases h
        | ok n =>
          rw [hg] at h
          dsimp only at h
          cases hlo : enumSol costs nt f n.lo curV curC with
          | none => rw [hlo] at h; cases h
          | some r1 =>
            rw [hlo] at h
            cases r1 with
            | error e => cases h
            | ok los =>
              dsimp only at h
              cases hhi : enumSol costs nt f n.hi (curV ++ [n.level])
                  (curC + (if 0 < n.level ∧ n.level < costs.length then
                    costs.getD n.level 0 else 0)) with
              | none => rw [hhi] at h; cases h
              | some r2 =>
                rw [hhi] at h
                cases r2 with
                | error e => cases h
                | ok his =>
                  dsimp only at h
                  have := Except.ok.inj (Option.some.inj h)
                  subst this
                  intro sol hm
                  rcases List.mem_append.1 hm with hm | hm
                  · exact ih hlo hC sol hm
                  · refine ih hhi ?_ sol hm
                    rw [costOf_append, hC]
                    unfold costOf
                    simp

/-- Every variable of every produced solution is on the running path or is
the level of some stored node. -/
theorem enumSol_vars_mem (costs : List ℚ) (nt : NodeTable) :
    ∀ (f : Nat) {id : NodeID} {curV : List Nat} {curC : ℚ} {sols : List Solution},
      enumSol costs nt f id curV curC = some (.ok sols) →
      ∀ sol ∈ sols, ∀ v ∈ sol.vars, v ∈ curV ∨ ∃ n ∈ nt.stored, n.level = v := by
  intro f
  induction f with
  | zero => intro id curV curC sols h; simp [enumSol] at h
  | succ f ih =>
    intro id curV curC sols h
    unfold enumSol at h
    by_cases h1 : id = ZeroNode
    · rw [if_pos h1] at h
      have := Except.ok.inj (Option.some.inj h)
      subst this
      intro sol hm
      cases hm
    · rw [if_neg h1] at h
      by_cases h2 : id = OneNode
      · rw [if_pos h2] at h
        have := Except.ok.inj (Option.some.inj h)
        subst this
        intro sol hm
        rcases List.mem_singleton.1 hm with rfl
        intro v hv
        exact Or.inl (mem_sortNat.1 hv)
      · rw [if_neg h2] at h
        cases hg : nt.GetNode id with
        | error e => rw [hg] at h; cases h
        | ok n =>
          rw [hg] at h
          dsimp only at h
          cases hlo : enumSol costs nt f n.lo curV curC with
          | none => rw [hlo] at h; cases h
          | some r1 =>
            rw [hlo] at h
            cases r1 with
            | error e => cases h
            | ok los =>
              dsimp only at h
              cases hhi : enumSol costs nt f n.hi (curV ++ [n.level])
                  (curC + (if 0 < n.level ∧ n.level < costs.length then
                    costs.getD n.level 0 else 0)) with
              | none => rw [hhi] at h; cases h
              | some r2 =>
                rw [hhi] at h
                cases r2 with
                | error e => cases h
                | ok his =>
                  dsimp only at h
                  have := Except.ok.inj (Option.some.inj h)
                  subst this
                  intro sol hm v hv
                  rcases List.mem_append.1 hm with hm | hm
                  · exact ih hlo sol hm v hv
                  · rcases ih hhi sol hm v hv with hin | hin
                    · rcases List.mem_append.1 hin with hin | hin
                      · exact Or.inl hin
                      · rcases List.mem_singleton.1 hin with rfl
                        exact Or.inr ⟨n, GetNode_ok_mem hg h1 h2, rfl⟩
                    · exact Or.inr hin

/-! ### Well-formedness of tables produced by skip-conformant builds -/

/-- The level denoted by an id (`0` for terminals or out-of-range ids). -/
def vLvl (nt : NodeTable) (id : Nat) : Nat :=
  if 3 ≤ id ∧ id - 3 < nt.stored.length then
    (nt.stored.getD (id - 3) ⟨0, NullNode, NullNode⟩).level
  else 0

/-- A valid child reference: a terminal or an in-range stored id. -/
def ValidCh (nt : NodeTable) (id : Nat) : Prop :=
  id = ZeroNode ∨ id = OneNode ∨ (3 ≤ id ∧ id - 3 < nt.stored.length)

/-- Tables of skip-conformant builds over `N` variables: every stored node
has level in `[1, N]` and children that are terminals or strictly
lower-level stored nodes. -/
def BuiltWF (nt : NodeTable) (N : Nat) : Prop :=
  ∀ n ∈ nt.stored, 1 ≤ n.level ∧ n.level ≤ N ∧
    ValidCh nt n.lo ∧ ValidCh nt n.hi ∧
    vLvl nt n.lo < n.level ∧ vLvl nt n.hi < n.level

theorem builtWF_empty (N : Nat) : BuiltWF NodeTable.empty N := by
  intro n hn
  simp [NodeTable.empty] at hn

theorem ValidCh_ext {nt nt' : NodeTable} (hx : Ext nt nt') {id : Nat}
    (h : ValidCh nt id) : ValidCh nt' id := by
  obtain ⟨t, ht⟩ := hx
  rcases h with h | h | ⟨h3, hlt⟩
  · exact Or.inl h
  · exact Or.inr (Or.inl h)
  · refine Or.inr (Or.inr ⟨h3, ?_⟩)
    rw [ht, List.length_append]
    omega

theorem vLvl_ext {nt nt' : NodeTable} (hx : Ext nt nt') {id : Nat}
    (h : ValidCh nt id) : vLvl nt' id = vLvl nt id := by
  obtain ⟨t, ht⟩ := hx
  rcases h with h | h | ⟨h3, hlt⟩
  · subst h; rfl
  · subst h; rfl
  · unfold vLvl
    rw [if_pos ⟨h3, by rw [ht, List.length_append]; omega⟩, if_pos ⟨h3, hlt⟩]
    rw [ht, getD_append_left _ _ _ hlt]

/-- A non-terminal valid child reads back successfully. -/
theorem GetNode_of_validCh {nt : NodeTable} {id : Nat} (h : ValidCh nt id)
    (h1 : id ≠ ZeroNode) (h2 : id ≠ OneNode) :
    nt.GetNode id = .ok (nt.stored.getD (id - 3) ⟨0, NullNode, NullNode⟩) := by
  rcases h with h | h | ⟨h3, hlt⟩
  · exact absurd h h1
  · exact absurd h h2
  · unfold NodeTable.GetNode
    have hc1 : ¬(id = NullNode ∨ 3 + nt.stored.length ≤ id) := by
      unfold NullNode
      omega
    rw [if_neg hc1, if_neg (by tauto)]

/-- The level an id denotes is the level of the node it reads back to. -/
theorem vLvl_of_getD {nt : NodeTable} {id : Nat} (h3 : 3 ≤ id)
    (hlt : id - 3 < nt.stored.length) :
    vLvl nt id = (nt.stored.getD (id - 3) ⟨0, NullNode, NullNode⟩).level := by
  unfold vLvl
  rw [if_pos ⟨h3, hlt⟩]

/-- Appending a well-formed node preserves `BuiltWF`. -/
theorem builtWF_snoc {nt : NodeTable} {N : Nat} (hwf : BuiltWF nt N)
    (n : Node) (h1 : 1 ≤ n.level) (h2 : n.level ≤ N)
    (hlo : ValidCh nt n.lo) (hhi : ValidCh nt n.hi)
    (hlol : vLvl nt n.lo < n.level) (hhil : vLvl nt n.hi < n.level) :
    BuiltWF (NodeTable.mk (nt.stored ++ [n])) N := by
  have hx : Ext nt (NodeTable.mk (nt.stored ++ [n])) := ⟨[n], rfl⟩
  intro x hx'
  rcases List.mem_append.1 hx' with hm | hm
  · obtain ⟨e1, e2, e3, e4, e5, e6⟩ := hwf x hm
    exact ⟨e1, e2, ValidCh_ext hx e3, ValidCh_ext hx e4,
      by rw [vLvl_ext hx e3]; exact e5, by rw [vLvl_ext hx e4]; exact e6⟩
  · rcases List.mem_singleton.1 hm with rfl
    exact ⟨h1, h2, ValidCh_ext hx hlo, ValidCh_ext hx hhi,
      by rw [vLvl_ext hx hlo]; exact hlol, by rw [vLvl_ext hx hhi]; exact hhil⟩

/-- `AddNode` from well-formed arguments keeps the table well-formed, and
the returned id denotes a valid reference of level at most `level`. -/
theorem AddNode_wf {nt nt' : NodeTable} {N level : Nat} {lo hi i : Nat}
    (hwf : BuiltWF nt N) (h1 : 1 ≤ level) (h2 : level ≤ N)
    (hlo : ValidCh nt lo) (hhi : ValidCh nt hi)
    (hlol : vLvl nt lo < level) (hhil : vLvl nt hi < level)
    (h : nt.AddNode level lo hi = (nt', i)) :
    BuiltWF nt' N ∧ ValidCh nt' i ∧ vLvl nt' i ≤ level := by
  by_cases hz : hi = ZeroNode
  · subst hz
    rw [AddNode_hiZero] at h
    injection h with he1 he2
    subst he1
    subst he2
    exact ⟨hwf, hlo, le_of_lt hlol⟩
  · unfold NodeTable.AddNode at h
    simp only [hz, if_false] at h
    cases hfind : nt.stored.findIdx? (fun x => x = (⟨level, lo, hi⟩ : Node)) with
    | some j =>
      rw [hfind] at h
      injection h with he1 he2
      subst he1
      subst he2
      obtain ⟨hj, hp⟩ := findIdx?_eq_some_get hfind
      have hget : nt.stored.getD j ⟨0, NullNode, NullNode⟩ = ⟨level, lo, hi⟩ := by
        rw [List.getD_eq_getElem?_getD, List.getElem?_eq_getElem hj]
        simpa [List.get_eq_getElem] using hp
      refine ⟨hwf, Or.inr (Or.inr ⟨Nat.le_add_left 3 j, by omega⟩), ?_⟩
      rw [vLvl_of_getD (Nat.le_add_left 3 j) (by omega)]
      rw [show j + 3 - 3 = j from rfl, hget]
    | none =>
      rw [hfind] at h
      injection h with he1 he2
      subst he1
      subst he2
      have hwf' := builtWF_snoc hwf ⟨level, lo, hi⟩ h1 h2 hlo hhi hlol hhil
      refine ⟨hwf', Or.inr (Or.inr ⟨Nat.le_add_left 3 _, by simp⟩), ?_⟩
      have hlt : nt.stored.length <
          (NodeTable.mk (nt.stored ++ [(⟨level, lo, hi⟩ : Node)])).stored.length := by
        simp
      rw [vLvl_of_getD (Nat.le_add_left 3 _) (by simp)]
      rw [show nt.stored.length + 3 - 3 = nt.stored.length from rfl]
      rw [getD_append_self]

/-- The reference build from a well-formed table keeps it well-formed; the
result id is valid and denotes level at most the entry level. -/
theorem buildP_wf {S : Type} {sp : CSpec S} (hgs : goodSkip sp) {N : Nat} :
    ∀ (f : Nat) {s : S} {level : Nat} {nt nt' : NodeTable} {i : NodeID},
      buildP sp f s level nt = some (nt', i) → level ≤ N → BuiltWF nt N →
      BuiltWF nt' N ∧ ValidCh nt' i ∧ vLvl nt' i ≤ level := by
  intro f
  induction f with
  | zero => intro s level nt nt' i h _ _; simp [buildP] at h
  | succ f ih =>
    intro s level nt nt' i h hlev hwf
    rw [buildP_succ] at h
    by_cases hl : level = 0
    · rw [if_pos hl] at h
      have h' := Option.some.inj h
      have h1 : nt = nt' := congrArg Prod.fst h'
      have h3 : (if sp.isValid s then OneNode else ZeroNode) = i := congrArg Prod.snd h'
      subst h1
      by_cases hv : sp.isValid s
      · rw [if_pos hv] at h3
        subst h3
        exact ⟨hwf, Or.inr (Or.inl rfl), Nat.zero_le _⟩
      · rw [if_neg hv] at h3
        subst h3
        exact ⟨hwf, Or.inl rfl, Nat.zero_le _⟩
    · rw [if_neg hl] at h
      have hbr : ∀ (b : Bool) (nt₀ nt₁ : NodeTable) (j : NodeID),
          buildPBranch sp (buildP sp f) (sp.getChild s level b) level nt₀ = some (nt₁, j) →
          BuiltWF nt₀ N →
          BuiltWF nt₁ N ∧ ValidCh nt₁ j ∧ vLvl nt₁ j ≤ level - 1 := by
        intro b nt₀ nt₁ j hb hwf₀
        cases hres : sp.getChild s level b with
        | err =>
          rw [hres] at hb
          cases hb
          exact ⟨hwf₀, Or.inl rfl, Nat.zero_le _⟩
        | state s' =>
          rw [hres] at hb
          exact ih hb (by omega) hwf₀
        | skip s' k =>
          rw [hres] at hb
          simp only [buildPBranch] at hb
          by_cases hk : k ≤ 0
          · rw [if_pos hk] at hb
            by_cases hv : sp.isValid s'
            · rw [if_pos hv] at hb
              cases hb
              exact ⟨hwf₀, Or.inr (Or.inl rfl), Nat.zero_le _⟩
            · rw [if_neg hv] at hb
              cases hb
              exact ⟨hwf₀, Or.inl rfl, Nat.zero_le _⟩
          · rw [if_neg hk] at hb
            have hklt : k < (level : Int) := hgs s level b s' k hres
            have hkn : k.toNat ≤ level - 1 := by omega
            obtain ⟨w1, w2, w3⟩ := ih hb (by omega) hwf₀
            exact ⟨w1, w2, le_trans w3 hkn⟩
      cases hb1 : buildPBranch sp (buildP sp f) (sp.getChild s level false) level nt with
      | none => rw [hb1] at h; cases h
      | some p1 =>
        obtain ⟨nt1, lo⟩ := p1
        rw [hb1] at h
        dsimp only at h
        cases hb2 : buildPBranch sp (buildP sp f) (sp.getChild s level true) level nt1 with
        | none => rw [hb2] at h; cases h
        | some p2 =>
          obtain ⟨nt2, hi⟩ := p2
          rw [hb2] at h
          dsimp only at h
          have hAdd : nt2.AddNode level lo hi = (nt', i) := Option.some.inj h
          obtain ⟨w1, w2, w3⟩ := hbr false nt nt1 lo hb1 hwf
          obtain ⟨u1, u2, u3⟩ := hbr true nt1 nt2 hi hb2 w1
          have hext2 : Ext nt1 nt2 :=
            buildPBranch_ext (fun _ _ _ _ _ hh => buildP_ext f hh) hb2
          have w2' : ValidCh nt2 lo := ValidCh_ext hext2 w2
          have w3' : vLvl nt2 lo ≤ level - 1 := by
            rw [vLvl_ext hext2 w2]
            exact w3
          obtain ⟨r1, r2, r3⟩ := AddNode_wf u1 (by omega) hlev w2' u2
            (by omega) (by omega) hAdd
          exact ⟨r1, r2, le_trans r3 (le_refl level)⟩

theorem getD_mem {l : List Node} {j : Nat} (h : j < l.length) (d : Node) :
    l.getD j d ∈ l := by
  rw [List.getD_eq_getElem?_getD, List.getElem?_eq_getElem h]
  exact List.getElem_mem _

/-- On a well-formed table the enumerator terminates: fuel one more than
the denoted level suffices. -/
theorem enumSol_total (costs : List ℚ) {nt : NodeTable} {N : Nat}
    (hwf : BuiltWF nt N) :
    ∀ (lv : Nat), ∀ {id : NodeID}, ValidCh nt id → vLvl nt id ≤ lv →
      ∀ (curV : List Nat) (curC : ℚ),
        ∃ sols, enumSol costs nt (lv + 1) id curV curC = some (.ok sols) := by
  intro lv
  induction lv using Nat.strong_induction_on with
  | _ lv ih =>
    intro id hv hlv curV curC
    by_cases h1 : id = ZeroNode
    · exact ⟨[], by unfold enumSol; rw [if_pos h1]⟩
    · by_cases h2 : id = OneNode
      · exact ⟨[⟨sortNat curV, curC⟩], by unfold enumSol; rw [if_neg h1, if_pos h2]⟩
      · have hv' : 3 ≤ id ∧ id - 3 < nt.stored.length := by
          rcases hv with hv | hv | hv
          · exact absurd hv h1
          · exact absurd hv h2
          · exact hv
        obtain ⟨h3, hlt⟩ := hv'
        set n := nt.stored.getD (id - 3) ⟨0, NullNode, NullNode⟩ with hn
        have hmem : n ∈ nt.stored := getD_mem hlt _
        obtain ⟨e1, e2, e3, e4, e5, e6⟩ := hwf n hmem
        have hlvl : vLvl nt id = n.level := vLvl_of_getD h3 hlt
        have hlv1 : 1 ≤ lv := by omega
        obtain ⟨sl, hsl⟩ := ih (lv - 1) (by omega) e3 (by omega) curV curC
        obtain ⟨sh, hsh⟩ := ih (lv - 1) (by omega) e4 (by omega) (curV ++ [n.level])
          (curC + (if 0 < n.level ∧ n.level < costs.length then costs.getD n.level 0 else 0))
        have heq : lv - 1 + 1 = lv := by omega
        rw [heq] at hsl hsh
        refine ⟨sl ++ sh, ?_⟩
        unfold enumSol
        rw [if_neg h1, if_neg h2,
          GetNode_of_validCh (Or.inr (Or.inr ⟨h3, hlt⟩)) h1 h2]
        dsimp only
        rw [← hn, hsl]
        dsimp only
        rw [hsh]

/-- Distinctness invariant of the enumerator on a well-formed table:
solutions carry pairwise distinct variable sets; every variable is either
on the running path or bounded by the current node's level; and the running
path is contained in every solution. -/
theorem enumSol_distinct (costs : List ℚ) {nt : NodeTable} {N : Nat}
    (hwf : BuiltWF nt N) :
    ∀ (f : Nat) {id : NodeID} {curV : List Nat} {curC : ℚ} {sols : List Solution},
      enumSol costs nt f id curV curC = some (.ok sols) →
      ValidCh nt id → (∀ v ∈ curV, vLvl nt id < v) →
      List.Pairwise (fun a b : Solution => a.vars ≠ b.vars) sols ∧
      (∀ sol ∈ sols, ∀ v ∈ sol.vars, v ∈ curV ∨ v ≤ vLvl nt id) ∧
      (∀ sol ∈ sols, ∀ v ∈ curV, v ∈ sol.vars) := by
  intro f
  induction f with
  | zero => intro id curV curC sols h; simp [enumSol] at h
  | succ f ih =>
    intro id curV curC sols h hvc hcv
    unfold enumSol at h
    by_cases h1 : id = ZeroNode
    · rw [if_pos h1] at h
      have := Except.ok.inj (Option.some.inj h)
      subst this
      exact ⟨List.Pairwise.nil, fun sol hm => absurd hm (List.not_mem_nil sol),
        fun sol hm => absurd hm (List.not_mem_nil sol)⟩
    · rw [if_neg h1] at h
      by_cases h2 : id = OneNode
      · rw [if_pos h2] at h
        have := Except.ok.inj (Option.some.inj h)
        subst this
        refine ⟨List.pairwise_singleton _ _, ?_, ?_⟩
        · intro sol hm v hv
          rcases List.mem_singleton.1 hm with rfl
          exact Or.inl (mem_sortNat.1 hv)
        · intro sol hm v hv
          rcases List.mem_singleton.1 hm with rfl
          exact mem_sortNat.2 hv
      · rw [if_neg h2] at h
        cases hg : nt.GetNode id with
        | error e => rw [hg] at h; cases h
        | ok n =>
          rw [hg] at h
          dsimp only at h
          have hv' : 3 ≤ id ∧ id - 3 < nt.stored.length := by
            rcases hvc with hv | hv | hv
            · exact absurd hv h1
            · exact absurd hv h2
            · exact hv
          have hng : n = nt.stored.getD (id - 3) ⟨0, NullNode, NullNode⟩ := by
            have := GetNode_of_validCh hvc h1 h2
            rw [this] at hg
            exact (Except.ok.inj hg).symm
          have hmem : n ∈ nt.stored := GetNode_ok_mem hg h1 h2
          obtain ⟨e1, e2, e3, e4, e5, e6⟩ := hwf n hmem
          have hlvl : vLvl nt id = n.level := by
            rw [hng]
            exact vLvl_of_getD hv'.1 hv'.2
          cases hlo : enumSol costs nt f n.lo curV curC with
          | none => rw [hlo] at h; cases h
          | some r1 =>
            rw [hlo] at h
            cases r1 with
            | error e => cases h
            | ok los =>
              dsimp only at h
              cases hhi : enumSol costs nt f n.hi (curV ++ [n.level])
                  (curC + (if 0 < n.level ∧ n.level < costs.length then
                    costs.getD n.level 0 else 0)) with
              | none => rw [hhi] at h; cases h
              | some r2 =>
                rw [hhi] at h
                cases r2 with
                | error e => cases h
                | ok his =>
                  dsimp only at h
                  have := Except.ok.inj (Option.some.inj h)
                  subst this
                  have hcvlo : ∀ v ∈ curV, vLvl nt n.lo < v := by
                    intro v hvv
                    have := hcv v hvv
                    omega
                  have hcvhi : ∀ v ∈ curV ++ [n.level], vLvl nt n.hi < v := by
                    intro v hvv
                    rcases List.mem_append.1 hvv with hvv | hvv
                    · have := hcv v hvv
                      omega
                    · rcases List.mem_singleton.1 hvv with rfl
                      exact e6
                  obtain ⟨p1, b1, s1⟩ := ih hlo e3 hcvlo
                  obtain ⟨p2, b2, s2⟩ := ih hhi e4 hcvhi
                  refine ⟨?_, ?_, ?_⟩
                  · rw [List.pairwise_append]
                    refine ⟨p1, p2, ?_⟩
                    intro a ha b hb
                    have hLb : n.level ∈ b.vars :=
                      s2 b hb n.level (List.mem_append.2 (Or.inr (List.mem_singleton.2 rfl)))
                    have hLa : n.level ∉ a.vars := by
                      intro hcontra
                      rcases b1 a ha n.level hcontra with hin | hin
                      · have := hcv n.level hin
                        omega
                      · omega
                    intro hcontra
                    rw [hcontra] at hLa
                    exact hLa hLb
                  · intro sol hm v hv
                    rcases List.mem_append.1 hm with hm | hm
                    · rcases b1 sol hm v hv with hin | hin
                      · exact Or.inl hin
                      · exact Or.inr (by omega)
                    · rcases b2 sol hm v hv with hin | hin
                      · rcases List.mem_append.1 hin with hin | hin
                        · exact Or.inl hin
                        · rcases List.mem_singleton.1 hin with rfl
                          exact Or.inr (le_of_eq hlvl.symm)
                      · exact Or.inr (by omega)
                  · intro sol hm v hv
                    rcases List.mem_append.1 hm with hm | hm
                    · exact s1 sol hm v hv
                    · exact s2 sol hm v (List.mem_append.2 (Or.inl hv))

/-- The reference build never returns the null id. -/
theorem buildP_pos {S : Type} {sp : CSpec S} :
    ∀ (f : Nat) {s : S} {level : Nat} {nt nt' : NodeTable} {i : NodeID},
      buildP sp f s level nt = some (nt', i) → 1 ≤ i := by
  intro f
  induction f with
  | zero => intro s level nt nt' i h; simp [buildP] at h
  | succ f ih =>
    intro s level nt nt' i h
    rw [buildP_succ] at h
    by_cases hl : level = 0
    · rw [if_pos hl] at h
      have h3 : (if sp.isValid s then OneNode else ZeroNode) = i :=
        congrArg Prod.snd (Option.some.inj h)
      by_cases hv : sp.isValid s
      · rw [if_pos hv] at h3; subst h3; decide
      · rw [if_neg hv] at h3; subst h3; decide
    · rw [if_neg hl] at h
      have hbr : ∀ (res : ChildRes S) (nt₀ nt₁ : NodeTable) (j : NodeID),
          buildPBranch sp (buildP sp f) res level nt₀ = some (nt₁, j) → 1 ≤ j := by
        intro res nt₀ nt₁ j hb
        cases res with
        | err => cases hb; decide
        | state s' => exact ih hb
        | skip s' k =>
          simp only [buildPBranch] at hb
          by_cases hk : k ≤ 0
          · rw [if_pos hk] at hb
            by_cases hv : sp.isValid s'
            · rw [if_pos hv] at hb; cases hb; decide
            · rw [if_neg hv] at hb; cases hb; decide
          · rw [if_neg hk] at hb
            exact ih hb
      cases hb1 : buildPBranch sp (buildP sp f) (sp.getChild s level false) level nt with
      | none => rw [hb1] at h; cases h
      | some p1 =>
        obtain ⟨nt1, lo⟩ := p1
        rw [hb1] at h
        dsimp only at h
        cases hb2 : buildPBranch sp (buildP sp f) (sp.getChild s level true) level nt1 with
        | none => rw [hb2] at h; cases h
        | some p2 =>
          obtain ⟨nt2, hi⟩ := p2
          rw [hb2] at h
          dsimp only at h
          have hAdd : nt2.AddNode level lo hi = (nt', i) := Option.some.inj h
          unfold NodeTable.AddNode at hAdd
          by_cases hz : hi = ZeroNode
          · simp only [hz, if_pos rfl] at hAdd
            have : lo = i := congrArg Prod.snd hAdd
            subst this
            exact hbr _ _ _ _ hb1
          · simp only [hz, if_false] at hAdd
            cases hfind : nt2.stored.findIdx? (fun x => x = (⟨level, lo, hi⟩ : Node)) with
            | some j =>
              rw [hfind] at hAdd
              have hji : j + 3 = i := congrArg Prod.snd hAdd
              subst hji
              exact Nat.le_add_left 1 _
            | none =>
              rw [hfind] at hAdd
              have hji : nt2.stored.length + 3 = i := congrArg Prod.snd hAdd
              subst hji
              exact Nat.le_add_left 1 _

theorem enumSol_mono_succ (costs : List ℚ) (nt : NodeTable) :
    ∀ (f : Nat) {id : NodeID} {curV : List Nat} {curC : ℚ} {r},
      enumSol costs nt f id curV curC = some r →
      enumSol costs nt (f + 1) id curV curC = some r := by
  intro f
  induction f with
  | zero => intro id curV curC r h; simp [enumSol] at h
  | succ f ih =>
    intro id curV curC r h
    unfold enumSol at h ⊢
    by_cases h1 : id = ZeroNode
    · simpa [h1] using h
    · by_cases h2 : id = OneNode
      · simpa [h1, h2] using h
      · simp only [h1, h2, if_false] at h ⊢
        cases hg : nt.GetNode id with
        | error e => rw [hg] at h; exact h
        | ok n =>
          rw [hg] at h
          dsimp only at h ⊢
          cases hlo : enumSol costs nt f n.lo curV curC with
          | none => rw [hlo] at h; cases h
          | some r1 =>
            rw [hlo] at h
            rw [ih hlo]
            cases r1 with
            | error e => exact h
            | ok los =>
              dsimp only at h ⊢
              cases hhi : enumSol costs nt f n.hi (curV ++ [n.level])
                  (curC + (if 0 < n.level ∧ n.level < costs.length then
                    costs.getD n.level 0 else 0)) with
              | none => rw [hhi] at h; cases h
              | some r2 =>
                rw [hhi] at h
                rw [ih hhi]
                exact h

theorem enumSol_mono {costs : List ℚ} {nt : NodeTable} {f g : Nat} (hfg : f ≤ g)
    {id : NodeID} {curV : List Nat} {curC : ℚ} {r}
    (h : enumSol costs nt f id curV curC = some r) :
    enumSol costs nt g id curV curC = some r := by
  induction g with
  | zero => exact Nat.le_zero.1 hfg ▸ h
  | succ g ih =>
    rcases Nat.lt_or_ge f (g + 1) with hlt | hge
    · exact enumSol_mono_succ costs nt g (ih (Nat.lt_succ_iff.1 hlt))
    · have : f = g + 1 := Nat.le_antisymm hfg hge
      exact this ▸ h

/-- The pure path count is the number of enumerated solutions: `Count`
counts the distinct root-to-`⊤` paths. -/
theorem countPN_enum_length (costs : List ℚ) (nt : NodeTable) :
    ∀ (f : Nat) {id : NodeID} {curV : List Nat} {curC : ℚ}
      {sols : List Solution} {c : Nat},
      enumSol costs nt f id curV curC = some (.ok sols) →
      countPN nt f id = some c → sols.length = c := by
  intro f
  induction f with
  | zero => intro id curV curC sols c h _; simp [enumSol] at h
  | succ f ih =>
    intro id curV curC sols c h hc
    unfold enumSol at h
    unfold countPN at hc
    by_cases h1 : id = ZeroNode
    · rw [if_pos h1] at h hc
      have := Except.ok.inj (Option.some.inj h)
      subst this
      have := Option.some.inj hc
      subst this
      rfl
    · rw [if_neg h1] at h
      rw [if_neg h1] at hc
      by_cases h2 : id = OneNode
      · rw [if_pos h2] at h hc
        have := Except.ok.inj (Option.some.inj h)
        subst this
        have := Option.some.inj hc
        subst this
        rfl
      · rw [if_neg h2] at h
        rw [if_neg h2] at hc
        cases hg : nt.GetNode id with
        | error e => rw [hg] at h; cases h
        | ok n =>
          rw [hg] at h hc
          dsimp only at h hc
          cases hlo : enumSol costs nt f n.lo curV curC with
          | none => rw [hlo] at h; cases h
          | some r1 =>
            rw [hlo] at h
            cases r1 with
            | error e => cases h
            | ok los =>
              dsimp only at h
              cases hclo : countPN nt f n.lo with
              | none => rw [hclo] at hc; cases hc
              | some clo =>
                rw [hclo] at hc
                dsimp only at hc
                cases hhi : enumSol costs nt f n.hi (curV ++ [n.level])
                    (curC + (if 0 < n.level ∧ n.level < costs.length then
                      costs.getD n.level 0 else 0)) with
                | none => rw [hhi] at h; cases h
                | some r2 =>
                  rw [hhi] at h
                  cases r2 with
                  | error e => cases h
                  | ok his =>
                    dsimp only at h
                    cases hchi : countPN nt f n.hi with
                    | none => rw [hchi] at hc; cases hc
                    | some chi =>
                      rw [hchi] at hc
                      dsimp only at hc
                      have := Except.ok.inj (Option.some.inj h)
                      subst this
                      have := Option.some.inj hc
                      subst this
                      rw [List.length_append, ih hlo hclo, ih hhi hchi]

/-- On in-range variables the guarded cost sum is the plain cost sum. -/
theorem costOf_eq_sum {costs : List ℚ} {vars : List Nat} {N : Nat}
    (hlen : N < costs.length) (hv : ∀ v ∈ vars, 1 ≤ v ∧ v ≤ N) :
    costOf costs vars = (vars.map (fun i => costs.getD i 0)).sum := by
  unfold costOf
  congr 1
  apply List.map_congr_left
  intro a ha
  obtain ⟨h1, h2⟩ := hv a ha
  rw [if_pos ⟨h1, by omega⟩]

/-! ### Concrete specifications for counterexamples and witnesses -/

/-- The unconstrained specification over `n` variables (spec §8: accepts
every transition, `IsValid` always true; expected count `2^n`). -/
def freeSpec (n : Nat) : CSpec Unit :=
  { vars := n
    init := ()
    getChild := fun _ _ _ => ChildRes.state ()
    isValid := fun _ => true }

theorem freeSpec_acc (n : Nat) :
    ∀ (l f : Nat), l < f → acceptedCountF (freeSpec n) f () l = some (2 ^ l) := by
  intro l
  induction l with
  | zero =>
    intro f hf
    cases f with
    | zero => omega
    | succ f =>
      rw [acceptedCountF_succ, if_pos rfl]
      rfl
  | succ l ih =>
    intro f hf
    cases f with
    | zero => omega
    | succ f =>
      rw [acceptedCountF_succ, if_neg (Nat.succ_ne_zero l)]
      have hstep : acceptedCountF (freeSpec n) f () l = some (2 ^ l) :=
        ih f (by omega)
      have hb : accBranch (freeSpec n) (acceptedCountF (freeSpec n) f)
          ((freeSpec n).getChild () (l + 1) false) (l + 1) = some (2 ^ l) := by
        show acceptedCountF (freeSpec n) f () (l + 1 - 1) = some (2 ^ l)
        rw [show l + 1 - 1 = l from rfl]
        exact hstep
      have hb' : accBranch (freeSpec n) (acceptedCountF (freeSpec n) f)
          ((freeSpec n).getChild () (l + 1) true) (l + 1) = some (2 ^ l) := hb
      rw [hb]
      dsimp only
      rw [hb']
      have hp : 2 ^ l + 2 ^ l = 2 ^ (l + 1) := by
        rw [pow_succ]
        ring
      show some (2 ^ l + 2 ^ l) = some (2 ^ (l + 1))
      rw [hp]

/-- C7 counterexample: at level 1 the spec emits a skip directive with
`skipTo = 1 = level` (invalid per the spec); the hi branch violates. -/
def badSkipSpec : CSpec Nat :=
  { vars := 1
    init := 0
    isValid := fun _ => true
    getChild := fun s l b =>
      if s = 0 ∧ l = 1 then (if b then ChildRes.err else ChildRes.skip 1 1)
      else if s = 1 ∧ l = 1 then (if b then ChildRes.err else ChildRes.state 2)
      else ChildRes.err }

/-- C6 counterexample, skip side: at `(state 0, level 3, lo)` emit the skip
directive `(state 1, skipTo 1)`. -/
def skipSpecA : CSpec Nat :=
  { vars := 3
    init := 0
    isValid := fun _ => true
    getChild := fun s l b =>
      if s = 0 ∧ l = 3 then (if b then ChildRes.err else ChildRes.skip 1 1)
      else if s = 1 ∧ l = 2 then ChildRes.state 1
      else if s = 1 ∧ l = 1 then (if b then ChildRes.err else ChildRes.state 2)
      else ChildRes.err }

/-- C6 counterexample, expansion side: the directive replaced by ordinary
expansion through level 2, each branch yielding the same state 1 (the
claim's reading of "each yielding the same S'"). -/
def expSpecA : CSpec Nat :=
  { vars := 3
    init := 0
    isValid := fun _ => true
    getChild := fun s l b =>
      if s = 0 ∧ l = 3 then (if b then ChildRes.err else ChildRes.state 1)
      else if s = 1 ∧ l = 2 then ChildRes.state 1
      else if s = 1 ∧ l = 1 then (if b then ChildRes.err else ChildRes.state 2)
      else ChildRes.err }

/-- C6 amended witness, skip side: as `skipSpecA` but the skipped level
rejects the taken branch. -/
def skipSpecB : CSpec Nat :=
  { vars := 3
    init := 0
    isValid := fun _ => true
    getChild := fun s l b =>
      if s = 0 ∧ l = 3 then (if b then ChildRes.err else ChildRes.skip 1 1)
      else if s = 1 ∧ l = 2 then (if b then ChildRes.err else ChildRes.state 1)
      else if s = 1 ∧ l = 1 then (if b then ChildRes.err else ChildRes.state 2)
      else ChildRes.err }

/-- C6 amended witness, expansion side of `skipSpecB`. -/
def expSpecB : CSpec Nat :=
  { vars := 3
    init := 0
    isValid := fun _ => true
    getChild := fun s l b =>
      if s = 0 ∧ l = 3 then (if b then ChildRes.err else ChildRes.state 1)
      else if s = 1 ∧ l = 2 then (if b then ChildRes.err else ChildRes.state 1)
      else if s = 1 ∧ l = 1 then (if b then ChildRes.err else ChildRes.state 2)
      else ChildRes.err }

/-! ### Claim C4 — zero-suppression reduction -/

/-- C4: `AddNode(level, lo, ⊥)` returns `lo` without allocating, and
consequently no node stored in any table reachable by `AddNode` calls has
its hi arc at `⊥`. -/
theorem c4_zero_suppression :
    (∀ (nt : NodeTable) (level : Nat) (lo : NodeID),
      nt.AddNode level lo ZeroNode = (nt, lo)) ∧
    (∀ nt : NodeTable, ReachableTable nt → NoHiZero nt) :=
  ⟨AddNode_hiZero, fun _ h => reachable_noHiZero h⟩

theorem c4_zero_suppression_witness :
    ReachableTable (NodeTable.empty.AddNode 2 2 2).1 ∧
    (NodeTable.empty.AddNode 2 2 2).1.AddNode 1 3 ZeroNode =
      ((NodeTable.empty.AddNode 2 2 2).1, 3) ∧
    NoHiZero (NodeTable.empty.AddNode 2 2 2).1 := by
  have hr : ReachableTable (NodeTable.empty.AddNode 2 2 2).1 :=
    ReachableTable.step 2 2 2 ReachableTable.empty
  exact ⟨hr, c4_zero_suppression.1 _ 1 3, c4_zero_suppression.2 _ hr⟩

/-! ### Claim C5 — deduplication and structural sharing -/

/-- C5: a repeated `AddNode` call with the same triple (`hi ≠ ⊥`) returns
the same id and leaves the table untouched (only the first call
allocates); every `AddNode`-reachable table stores at most one node per
triple, and two stored nodes coincide iff their positions do. -/
theorem c5_structural_sharing :
    (∀ (nt : NodeTable) (level : Nat) (lo hi : NodeID), hi ≠ ZeroNode →
      (nt.AddNode level lo hi).1.AddNode level lo hi = nt.AddNode level lo hi) ∧
    (∀ nt : NodeTable, ReachableTable nt → nt.stored.Nodup) ∧
    (∀ nt : NodeTable, ReachableTable nt →
      ∀ (i j : Nat) (hi' : i < nt.stored.length) (hj : j < nt.stored.length),
        nt.stored.get ⟨i, hi'⟩ = nt.stored.get ⟨j, hj⟩ ↔ i = j) := by
  refine ⟨fun nt level lo hi h => AddNode_idem h,
    fun _ h => reachable_nodup h, fun nt h i j hi' hj => ⟨?_, ?_⟩⟩
  · intro he
    exact nodup_get_inj (reachable_nodup h) hi' hj he
  · intro he
    subst he
    rfl

theorem c5_structural_sharing_witness :
    (2 : NodeID) ≠ ZeroNode ∧
    ReachableTable (NodeTable.empty.AddNode 1 2 2).1 ∧
    (NodeTable.empty.AddNode 1 2 2).1.AddNode 1 2 2 =
      NodeTable.empty.AddNode 1 2 2 ∧
    (NodeTable.empty.AddNode 1 2 2).1.stored.Nodup := by
  have hr : ReachableTable (NodeTable.empty.AddNode 1 2 2).1 :=
    ReachableTable.step 1 2 2 ReachableTable.empty
  exact ⟨by decide, hr, c5_structural_sharing.1 _ 1 2 2 (by decide),
    c5_structural_sharing.2.1 _ hr⟩

/-! ### Claim C7 — skip directives with `skipTo ≥ level` -/

/-- C7 counterexample: `badSkipSpec` emits `skipTo = 1` at level 1
(`skipTo ≥ level`).  Were the branch treated as a specification error and
pruned to `⊥`, the root would be `⊥`; the code instead recurses at
`skipTo`, and the built root is `⊤`. -/
theorem c7_counterexample :
    (buildM badSkipSpec 10 0 1 NodeTable.empty []).map (fun p => p.2.2) =
      some OneNode ∧ OneNode ≠ ZeroNode := by
  constructor
  · rfl
  · decide

/-- C7 amended: `buildRecursive` performs no validity check on a positive
`skipTo` — also when `skipTo ≥ level` it simply recurses at `skipTo` (the
branch becomes whatever that recursion returns, not `⊥`).  Stated for a lo
branch whose hi sibling violates. -/
theorem c7_skip_unvalidated {S : Type} [DecidableEq S] (sp : CSpec S)
    (f : Nat) (s s' : S) (level : Nat) (k : Int) (nt : NodeTable) (m : Memo S)
    (hlo : sp.getChild s level false = .skip s' k) (hk : 0 < k)
    (hhi : sp.getChild s level true = .err)
    (hl : level ≠ 0) (hmiss : memoLookup m s level = none) :
    buildM sp (f + 1) s level nt m =
      (buildM sp f s' k.toNat nt m).map
        (fun p => (p.1, ((s, level), p.2.2) :: p.2.1, p.2.2)) := by
  rw [buildM_succ, if_neg hl, hmiss, hlo, hhi]
  dsimp only [buildMBranch]
  rw [if_neg (by omega)]
  cases hr : buildM sp f s' k.toNat nt m with
  | none => rfl
  | some p =>
    obtain ⟨nt1, m1, lo⟩ := p
    dsimp only
    rw [AddNode_hiZero]
    rfl

theorem c7_skip_unvalidated_witness :
    badSkipSpec.getChild 0 1 false = .skip 1 1 ∧
    badSkipSpec.getChild 0 1 true = .err ∧
    buildM badSkipSpec 10 0 1 NodeTable.empty [] =
      (buildM badSkipSpec 9 1 (1 : Int).toNat NodeTable.empty []).map
        (fun p => (p.1, ((0, 1), p.2.2) :: p.2.1, p.2.2)) := by
  refine ⟨rfl, rfl, ?_⟩
  exact c7_skip_unvalidated badSkipSpec 9 0 1 1 1 NodeTable.empty []
    rfl (by decide) rfl (by decide) rfl

/-! ### Claim C8 — short cost vectors -/

/-- C8 counterexample: a built one-variable ZDD (the table of the
unconstrained one-variable build) and a one-entry cost vector.
`FindKBest` fails, but with the plain `insufficient cost data` error,
which does not wrap `ErrInvalidConstraint` (`errors.Is` is false, though
the claim asserts the InvalidConstraint kind). -/
theorem c8_counterexample :
    KBestEvaluate 10 1 [5]
        { root := 3, nodes := ⟨[⟨1, 2, 2⟩]⟩, vars := 1, reduced := false,
          config := newConfig [] } =
      some (.error (.plain "insufficient cost data")) ∧
    errorsIs (.plain "insufficient cost data") Sentinel.invalidConstraint = false := by
  refine ⟨rfl, rfl⟩

/-- C8 amended: on a built root with `k > 0` and a cost vector of at most
`N` entries, `FindKBest` fails with the plain `insufficient cost data`
error produced by `fmt.Errorf` without `%w`; it does not wrap
`ErrInvalidConstraint`. -/
theorem c8_short_costs_plain_error (z : ZDD) (fuel : Nat) (k : Int)
    (costs : List ℚ) (hroot : z.root ≠ NullNode) (hk : 0 < k)
    (hlen : costs.length ≤ z.vars) :
    KBestEvaluate fuel k costs z = some (.error (.plain "insufficient cost data")) ∧
    errorsIs (.plain "insufficient cost data") Sentinel.invalidConstraint = false := by
  refine ⟨?_, rfl⟩
  unfold KBestEvaluate
  rw [if_neg (by push_neg; exact ⟨hroot, by omega⟩), if_pos hlen]

theorem c8_short_costs_plain_error_witness :
    ((3 : NodeID) ≠ NullNode ∧ (0 : Int) < 1 ∧ ([(5 : ℚ)]).length ≤ 1) ∧
    KBestEvaluate 10 1 [5]
        { root := 3, nodes := ⟨[⟨1, 2, 2⟩]⟩, vars := 1, reduced := false,
          config := newConfig [] } =
      some (.error (.plain "insufficient cost data")) := by
  refine ⟨⟨by decide, by decide, by decide⟩, ?_⟩
  exact (c8_short_costs_plain_error _ 10 1 [5] (by decide) (by decide) (by decide)).1

/-! ### Claim C9 — memory limit default and enforcement -/

/-- C9 counterexample: with no memory-limit option the configured limit is
`1 << 30` bytes, not `0`. -/
theorem c9_counterexample :
    (newConfig []).MemoryLimit = 1 <<< 30 ∧ (1 <<< 30 : Int) ≠ 0 := by
  exact ⟨rfl, by decide⟩

/-- C9 amended: the default memory limit is `1 << 30` bytes (1 GiB);
`WithMemoryLimit` stores its argument; and `Build` never consults the
limit — its outcome is invariant under the configured limit and never a
memory-kind error. -/
theorem c9_memlimit_unenforced :
    ((newConfig []).MemoryLimit = 1 <<< 30) ∧
    (∀ b : Int, (newConfig [WithMemoryLimit b]).MemoryLimit = b) ∧
    (∀ (S : Type) (inst : DecidableEq S) (z : ZDD) (sp : CSpec S) (fuel : Nat)
      (L : Int),
      (ZDD.Build { z with config := { z.config with MemoryLimit := L } } sp
          fuel).map (Except.map (fun z' => (z'.root, z'.nodes))) =
        (ZDD.Build z sp fuel).map (Except.map (fun z' => (z'.root, z'.nodes)))) ∧
    (∀ (S : Type) (inst : DecidableEq S) (z : ZDD) (sp : CSpec S) (fuel : Nat)
      (e : GoError),
      ZDD.Build z sp fuel = some (.error e) →
      errorsIs e Sentinel.memoryLimit = false) := by
  refine ⟨rfl, fun b => rfl, ?_, ?_⟩
  · intro S inst z sp fuel L
    unfold ZDD.Build
    dsimp only
    by_cases hv : sp.vars ≠ z.vars
    · rw [if_pos hv, if_pos hv]
    · rw [if_neg hv, if_neg hv]
      cases hb : buildM sp fuel sp.init z.vars z.nodes [] with
      | none => rfl
      | some p =>
        obtain ⟨nt, m, root⟩ := p
        rfl
  intro S inst z sp fuel e h
  unfold ZDD.Build at h
  by_cases hv : sp.vars ≠ z.vars
  · rw [if_pos hv] at h
    have := Except.error.inj (Option.some.inj h)
    subst this
    rfl
  · rw [if_neg hv] at h
    cases hb : buildM sp fuel sp.init z.vars z.nodes [] with
    | none => rw [hb] at h; cases h
    | some p =>
      rw [hb] at h
      obtain ⟨nt, m, root⟩ := p
      dsimp only at h
      cases h

theorem c9_memlimit_unenforced_witness :
    ZDD.Build (NewZDD 1 []) (freeSpec 2) 5 =
      some (.error (.plain "spec variables != ZDD variables")) ∧
    errorsIs (.plain "spec variables != ZDD variables") Sentinel.memoryLimit = false := by
  refine ⟨rfl, ?_⟩
  exact c9_memlimit_unenforced.2.2.2 Unit inferInstance (NewZDD 1 []) (freeSpec 2) 5
    (.plain "spec variables != ZDD variables") rfl

/-! ### Claim C10 — evaluators on an unbuilt ZDD -/

/-- C10: with the root still `NullNode` (as `NewZDD` leaves it), `Count`
returns `0` with no error and `FindKBest` returns the empty list with no
error, for any `k` and any cost vector. -/
theorem c10_null_root_evaluators (z : ZDD) (hroot : z.root = NullNode)
    (fuel : Nat) (k : Int) (costs : List ℚ) :
    CountEvaluate fuel z = some (.ok 0) ∧
    KBestEvaluate fuel k costs z = some (.ok []) ∧
    (∀ (vars : Int) (opts : List ZOption), (NewZDD vars opts).root = NullNode) := by
  refine ⟨?_, ?_, fun vars opts => rfl⟩
  · unfold CountEvaluate
    rw [if_pos hroot]
  · unfold KBestEvaluate
    rw [if_pos (Or.inl hroot)]

theorem c10_null_root_evaluators_witness :
    (NewZDD 5 []).root = NullNode ∧
    CountEvaluate 0 (NewZDD 5 []) = some (.ok 0) ∧
    KBestEvaluate 0 (-2) [] (NewZDD 5 []) = some (.ok []) := by
  refine ⟨rfl, ?_, ?_⟩
  · exact (c10_null_root_evaluators (NewZDD 5 []) rfl 0 (-2) []).1
  · exact (c10_null_root_evaluators (NewZDD 5 []) rfl 0 (-2) []).2.1

/-- The tie-break counterexample specification: states accumulate the
branch choices top-down; exactly the choice sequences for the subsets
`{2}` and `{1,3}` are accepted at the bottom. -/
def tieSpec : CSpec (List Bool) :=
  { vars := 3
    init := []
    isValid := fun s => s == [false, true, false] || s == [true, false, true]
    getChild := fun s _ b => ChildRes.state (s ++ [b]) }

/-- Enumeration results agree across sufficient fuels. -/
theorem enumSol_det {costs : List ℚ} {nt : NodeTable} {f g : Nat}
    {id : NodeID} {curV : List Nat} {curC : ℚ} {r r'}
    (h : enumSol costs nt f id curV curC = some r)
    (h' : enumSol costs nt g id curV curC = some r') : r = r' := by
  rcases Nat.le_total f g with hle | hle
  · have hg := enumSol_mono hle h
    rw [hg] at h'
    exact Option.some.inj h'
  · have hf := enumSol_mono hle h'
    rw [hf] at h
    exact (Option.some.inj h).symm

/-! ### Claim C1 — Count and the path-count law -/

set_option maxRecDepth 10000 in
/-- C1 counterexample: the unconstrained 63-variable specification accepts
`2^63` subsets, but `Count` on the built diagram returns the wrapped
`int64` value `-2^63` — no exact subset count equals it. -/
theorem c1_counterexample :
    acceptedCountF (freeSpec 63) 64 () 63 = some (2 ^ 63) ∧
    (buildM (freeSpec 63) 64 () 63 NodeTable.empty []).map
        (fun p => CountEvaluate 64 ⟨p.2.2, p.1, 63, false, newConfig []⟩) =
      some (some (.ok (-(2 ^ 63)))) ∧
    ∀ c : Nat, (c : Int) ≠ -(2 ^ 63) := by
  refine ⟨freeSpec_acc 63 63 64 (by omega), rfl, ?_⟩
  intro c h
  have h0 : (0 : Int) ≤ (c : Int) := Int.natCast_nonneg c
  have h1 : (0 : Int) < 2 ^ 63 := by positivity
  rw [h] at h0
  linarith

/-- C1 amended: for every successful build, the exact number `c` of
accepted subsets equals the diagram's root-to-`⊤` path count computed by
the `cnt(⊥)=0, cnt(⊤)=1, cnt(v)=cnt(lo)+cnt(hi)` recurrence, and — below
the `int64` wrap threshold `2^63` — `Count` returns exactly `c`. -/
theorem c1_count_correct {S : Type} [DecidableEq S] {sp : CSpec S}
    {f : Nat} {nt : NodeTable} {m : Memo S} {root : NodeID}
    (hb : buildM sp f sp.init sp.vars NodeTable.empty [] = some (nt, m, root)) :
    ∃ c : Nat,
      (∃ F1, acceptedCountF sp F1 sp.init sp.vars = some c) ∧
      (∃ F2, countPN nt F2 root = some c) ∧
      (c < 2 ^ 63 → ∀ (rd : Bool) (cfg : Config),
        ∃ fuel, CountEvaluate fuel ⟨root, nt, sp.vars, rd, cfg⟩ =
          some (.ok (c : Int))) := by
  obtain ⟨⟨g, hp⟩, -, -⟩ := buildM_to_buildP f hb (memoOK_nil sp NodeTable.empty)
  obtain ⟨c, hacc, F, hcnt⟩ := buildP_count g hp
  refine ⟨c, ⟨g, hacc⟩, ⟨F, hcnt⟩, ?_⟩
  intro hlt rd cfg
  have hpw := countPN_to_PW nt F hcnt hlt
  obtain ⟨fuel, m', hcm, -⟩ := countPW_to_countM nt F [] hpw (cmemoOK_nil nt)
  have hpos : 1 ≤ root := buildP_pos g hp
  refine ⟨fuel, ?_⟩
  unfold CountEvaluate
  dsimp only
  rw [if_neg (by intro hr; rw [hr] at hpos; exact absurd hpos (by decide)), hcm]

theorem c1_count_correct_witness :
    buildM (freeSpec 2) 3 () 2 NodeTable.empty [] =
      some (⟨[⟨1, 2, 2⟩, ⟨2, 3, 3⟩]⟩, [(((), 2), 4), (((), 1), 3)], 4) ∧
    ∃ c : Nat,
      (∃ F1, acceptedCountF (freeSpec 2) F1 () 2 = some c) ∧
      (∃ F2, countPN ⟨[⟨1, 2, 2⟩, ⟨2, 3, 3⟩]⟩ F2 4 = some c) ∧
      (c < 2 ^ 63 → ∀ (rd : Bool) (cfg : Config),
        ∃ fuel, CountEvaluate fuel ⟨4, ⟨[⟨1, 2, 2⟩, ⟨2, 3, 3⟩]⟩, 2, rd, cfg⟩ =
          some (.ok (c : Int))) := by
  refine ⟨rfl, ?_⟩
  exact @c1_count_correct Unit inferInstance (freeSpec 2) 3 ⟨[⟨1, 2, 2⟩, ⟨2, 3, 3⟩]⟩
    [(((), 2), 4), (((), 1), 3)] 4 rfl

/-! ### Claim C2 — cost law and global optimality of the first solution -/

/-- C2: on a skip-conformant successful build with a cost vector longer
than the variable count, `FindKBest` succeeds; every returned solution's
cost is the sum of the cost entries of its variables, and whenever the
returned list is nonempty its head is a global minimum over every
enumeration of the diagram's solutions. -/
theorem c2_cost_law_and_optimality {S : Type} [DecidableEq S] {sp : CSpec S}
    (hgs : goodSkip sp) {f : Nat} {nt : NodeTable} {m : Memo S} {root : NodeID}
    (hb : buildM sp f sp.init sp.vars NodeTable.empty [] = some (nt, m, root))
    {k : Int} (hk : 0 < k) {costs : List ℚ} (hlen : sp.vars < costs.length)
    (rd : Bool) (cfg : Config) :
    ∃ sols : List Solution,
      KBestEvaluate (sp.vars + 1) k costs ⟨root, nt, sp.vars, rd, cfg⟩ =
        some (.ok sols) ∧
      (∀ sol ∈ sols,
        sol.cost = (sol.vars.map (fun i => costs.getD i 0)).sum) ∧
      (∀ x rest, sols = x :: rest →
        ∀ (g : Nat) (esols : List Solution),
          enumSol costs nt g root [] 0 = some (.ok esols) →
          ∀ y ∈ esols, x.cost ≤ y.cost) := by
  obtain ⟨⟨g0, hp⟩, -, -⟩ := buildM_to_buildP f hb (memoOK_nil sp NodeTable.empty)
  obtain ⟨hwf, hvc, hvl⟩ := buildP_wf hgs g0 hp (le_refl _) (builtWF_empty _)
  obtain ⟨esols, henum⟩ := enumSol_total costs hwf sp.vars hvc hvl [] 0
  have hpos : 1 ≤ root := buildP_pos g0 hp
  have hroot : ¬(root = NullNode ∨ k ≤ 0) := by
    rintro (hr | hr)
    · rw [hr] at hpos; exact absurd hpos (by decide)
    · omega
  refine ⟨(sortByCost esols).take k.toNat, ?_, ?_, ?_⟩
  · unfold KBestEvaluate
    dsimp only
    rw [if_neg hroot, if_neg (by omega), henum]
  · intro sol hsol
    have hsub : sol ∈ sortByCost esols := List.take_subset _ _ hsol
    have hmem : sol ∈ esols := (sortByCost_perm esols).mem_iff.1 hsub
    have hc0 : (0 : ℚ) = costOf costs [] := by simp [costOf]
    have hcost := enumSol_cost costs nt (sp.vars + 1) henum hc0 sol hmem
    have hbnd : ∀ v ∈ sol.vars, 1 ≤ v ∧ v ≤ sp.vars := by
      intro v hv
      rcases enumSol_vars_mem costs nt (sp.vars + 1) henum sol hmem v hv with
        hin | ⟨n, hn, hlv⟩
      · exact absurd hin (List.not_mem_nil v)
      · obtain ⟨e1, e2, -⟩ := hwf n hn
        exact ⟨hlv ▸ e1, hlv ▸ e2⟩
    rw [hcost, costOf_eq_sum hlen hbnd]
  · intro x rest hx g esols' henum' y hy
    have hdet := enumSol_det henum henum'
    have he : esols = esols' := Except.ok.inj hdet
    subst he
    cases hse : sortByCost esols with
    | nil => rw [hse] at hx; simp at hx
    | cons a t =>
      rw [hse] at hx
      have hk0 : k.toNat = k.toNat - 1 + 1 := by omega
      rw [hk0, List.take_succ_cons] at hx
      have hax : a = x := (List.cons.inj hx).1
      subst hax
      exact sortByCost_head_min hse hy

theorem c2_cost_law_and_optimality_witness :
    goodSkip (freeSpec 1) ∧
    buildM (freeSpec 1) 2 () 1 NodeTable.empty [] =
      some (⟨[⟨1, 2, 2⟩]⟩, [(((), 1), 3)], 3) ∧
    ∃ sols : List Solution,
      KBestEvaluate 2 1 [0, 5] ⟨3, ⟨[⟨1, 2, 2⟩]⟩, 1, false, newConfig []⟩ =
        some (.ok sols) ∧
      (∀ sol ∈ sols,
        sol.cost = (sol.vars.map (fun i => ([0, 5] : List ℚ).getD i 0)).sum) ∧
      (∀ x rest, sols = x :: rest →
        ∀ (g : Nat) (esols : List Solution),
          enumSol [0, 5] ⟨[⟨1, 2, 2⟩]⟩ g 3 [] 0 = some (.ok esols) →
          ∀ y ∈ esols, x.cost ≤ y.cost) := by
  have hgs : goodSkip (freeSpec 1) := by
    intro s l b s' k h
    simp [freeSpec] at h
  refine ⟨hgs, rfl, ?_⟩
  exact @c2_cost_law_and_optimality Unit inferInstance (freeSpec 1) hgs 2 ⟨[⟨1, 2, 2⟩]⟩
    [(((), 1), 3)] 3 rfl 1 (by decide) [0, 5] (by decide) false (newConfig [])

/-! ### Claim C3 — k-best ordering and tie-breaking -/

attribute [local semireducible] Rat.add

/-- C3 counterexample: with costs `[0,1,3,2]` the accepted subsets `{2}`
and `{1,3}` both cost `3`; `FindKBest` returns `{2}` before `{1,3}` (the
stable sort keeps enumeration order), although `[1,3]` strictly precedes
`[2]` in the ascending sorted-variable-sequence order the claim asserts
for ties. -/
theorem c3_counterexample :
    (buildM tieSpec 10 [] 3 NodeTable.empty []).map
        (fun p => KBestEvaluate 10 2 [0, 1, 3, 2]
          ⟨p.2.2, p.1, 3, false, newConfig []⟩) =
      some (some (.ok [⟨[2], 3⟩, ⟨[1, 3], 3⟩])) ∧
    List.Lex (· < ·) [1, 3] [2] := by
  exact ⟨rfl, List.Lex.rel (by decide)⟩

/-- C3 amended: `FindKBest` on a skip-conformant build returns at most `k`
solutions, ascending by cost, with pairwise distinct variable sets.  Each
conclusion holds for every sorted-by-cost permutation `sort.Slice` could
return, so the idealised sort underneath does not strengthen the
statement; no tie-break law (by variable sequence or otherwise) is
asserted — the counterexample refutes the claimed one. -/
theorem c3_kbest_ordering {S : Type} [DecidableEq S] {sp : CSpec S}
    (hgs : goodSkip sp) {f : Nat} {nt : NodeTable} {m : Memo S} {root : NodeID}
    (hb : buildM sp f sp.init sp.vars NodeTable.empty [] = some (nt, m, root))
    {k : Int} (hk : 0 < k) {costs : List ℚ} (hlen : sp.vars < costs.length)
    (rd : Bool) (cfg : Config) :
    ∃ sols : List Solution,
      KBestEvaluate (sp.vars + 1) k costs ⟨root, nt, sp.vars, rd, cfg⟩ =
        some (.ok sols) ∧
      sols.length ≤ k.toNat ∧
      List.Pairwise costLE sols ∧
      List.Pairwise (fun a b : Solution => a.vars ≠ b.vars) sols := by
  obtain ⟨⟨g0, hp⟩, -, -⟩ := buildM_to_buildP f hb (memoOK_nil sp NodeTable.empty)
  obtain ⟨hwf, hvc, hvl⟩ := buildP_wf hgs g0 hp (le_refl _) (builtWF_empty _)
  obtain ⟨esols, henum⟩ := enumSol_total costs hwf sp.vars hvc hvl [] 0
  have hpos : 1 ≤ root := buildP_pos g0 hp
  have hroot : ¬(root = NullNode ∨ k ≤ 0) := by
    rintro (hr | hr)
    · rw [hr] at hpos; exact absurd hpos (by decide)
    · omega
  refine ⟨(sortByCost esols).take k.toNat, ?_,
    List.length_take_le _ _, ?_, ?_⟩
  · unfold KBestEvaluate
    dsimp only
    rw [if_neg hroot, if_neg (by omega), henum]
  · exact List.Pairwise.sublist (List.take_sublist _ _) (sortByCost_sorted esols)
  · have hdist := (enumSol_distinct costs hwf (sp.vars + 1) henum hvc
      (fun v hv => absurd hv (List.not_mem_nil v))).1
    have hsym : Symmetric (fun a b : Solution => a.vars ≠ b.vars) :=
      fun a b hab he => hab he.symm
    have hperm : List.Pairwise (fun a b : Solution => a.vars ≠ b.vars)
        (sortByCost esols) :=
      ((sortByCost_perm esols).pairwise_iff (fun h => hsym h)).2 hdist
    exact List.Pairwise.sublist (List.take_sublist _ _) hperm

theorem c3_kbest_ordering_witness :
    goodSkip tieSpec ∧
    buildM tieSpec 10 [] 3 NodeTable.empty [] =
      some (⟨[⟨2, 1, 2⟩, ⟨1, 1, 2⟩, ⟨3, 3, 4⟩]⟩,
        [(([], 3), 5), (([true], 2), 4), (([true, true], 1), 1),
         (([true, false], 1), 4), (([false], 2), 3), (([false, true], 1), 2),
         (([false, false], 1), 1)], 5) ∧
    ∃ sols : List Solution,
      KBestEvaluate 4 2 [0, 1, 3, 2]
          ⟨5, ⟨[⟨2, 1, 2⟩, ⟨1, 1, 2⟩, ⟨3, 3, 4⟩]⟩, 3, false, newConfig []⟩ =
        some (.ok sols) ∧
      sols.length ≤ (2 : Int).toNat ∧
      List.Pairwise costLE sols ∧
      List.Pairwise (fun a b : Solution => a.vars ≠ b.vars) sols := by
  have hgs : goodSkip tieSpec := by
    intro s l b s' k h
    simp [tieSpec] at h
  refine ⟨hgs, rfl, ?_⟩
  exact @c3_kbest_ordering (List Bool) inferInstance tieSpec hgs 10
    ⟨[⟨2, 1, 2⟩, ⟨1, 1, 2⟩, ⟨3, 3, 4⟩]⟩
    [(([], 3), 5), (([true], 2), 4), (([true, true], 1), 1),
     (([true, false], 1), 4), (([false], 2), 3), (([false, true], 1), 2),
     (([false, false], 1), 1)] 5 rfl 2 (by decide) [0, 1, 3, 2] (by decide)
    false (newConfig [])

/-! ### Claim C6 — skip-invariance -/

/-- C6 counterexample: `skipSpecA` emits skip `(state 1, skipTo 1)` at
level 3, and `expSpecA` replaces the directive by ordinary expansion with
both branches at the skipped level 2 yielding the same state 1 — the
claim's reading of "each yielding the same S'".  The built root ids differ
(the pass-through level creates a real node under zero-suppression only in
the expanded spec). -/
theorem c6_counterexample :
    skipSpecA.getChild 0 3 false = .skip 1 1 ∧
    expSpecA.getChild 0 3 false = .state 1 ∧
    (∀ b, expSpecA.getChild 1 2 b = .state 1) ∧
    (∀ s l b, ¬(s = 0 ∧ l = 3 ∧ b = false) →
      skipSpecA.getChild s l b = expSpecA.getChild s l b) ∧
    (buildM skipSpecA 10 0 3 NodeTable.empty []).map (fun p => p.2.2) =
      some 2 ∧
    (buildM expSpecA 10 0 3 NodeTable.empty []).map (fun p => p.2.2) =
      some 3 ∧
    (2 : NodeID) ≠ 3 := by
  refine ⟨rfl, rfl, fun b => by cases b <;> rfl, ?_, rfl, rfl, by decide⟩
  intro s l b h
  by_cases h1 : s = 0 ∧ l = 3
  · cases b
    · exact absurd ⟨h1.1, h1.2, rfl⟩ h
    · simp [skipSpecA, expSpecA, h1.1, h1.2]
  · simp [skipSpecA, expSpecA, h1]

/-- C6 amended: skip-invariance holds when the expansion inserts forced
pass-through levels — at every skipped level the lo branch yields the same
`S'` and the hi branch violates (so the inserted node is erased by
zero-suppression): the two specifications then build the same table and
the same root id from the empty table. -/
theorem c6_skip_invariance {S : Type} [DecidableEq S] {sp1 sp2 : CSpec S}
    {s₀ S' : S} {L L' : Nat} {b₀ : Bool}
    (hvalid : sp1.isValid = sp2.isValid)
    (hne : ∀ s l b, ¬(s = s₀ ∧ l = L ∧ b = b₀) →
      sp1.getChild s l b = sp2.getChild s l b)
    (hdir1 : sp1.getChild s₀ L b₀ = .skip S' (L' : Int))
    (hdir2 : sp2.getChild s₀ L b₀ = .state S')
    (hL0 : 0 < L') (hLL : L' < L)
    (hforced : ∀ j, L' < j → j < L →
      sp2.getChild S' j false = .state S' ∧ sp2.getChild S' j true = .err)
    {f : Nat} {s : S} {level : Nat} {nt : NodeTable} {m : Memo S}
    {root : NodeID}
    (hb : buildM sp1 f s level NodeTable.empty [] = some (nt, m, root)) :
    ∃ g m2, buildM sp2 g s level NodeTable.empty [] = some (nt, m2, root) := by
  obtain ⟨⟨g1, hp1⟩, -, -⟩ := buildM_to_buildP f hb (memoOK_nil sp1 NodeTable.empty)
  obtain ⟨g2, hp2⟩ := buildP_skip_exp hvalid hne hdir1 hdir2 hL0 hLL hforced g1 hp1
  obtain ⟨g3, m2, hb2, -⟩ := buildP_to_buildM g2 [] hp2 (memoOK_nil sp2 NodeTable.empty)
  exact ⟨g3, m2, hb2⟩

theorem c6_skip_invariance_witness :
    skipSpecB.getChild 0 3 false = .skip 1 1 ∧
    buildM skipSpecB 10 0 3 NodeTable.empty [] =
      some (⟨[]⟩, [((0, 3), 2), ((1, 1), 2)], 2) ∧
    ∃ g m2, buildM expSpecB g 0 3 NodeTable.empty [] = some (⟨[]⟩, m2, 2) := by
  have hne : ∀ s l b, ¬(s = 0 ∧ l = 3 ∧ b = false) →
      skipSpecB.getChild s l b = expSpecB.getChild s l b := by
    intro s l b h
    by_cases h1 : s = 0 ∧ l = 3
    · cases b
      · exact absurd ⟨h1.1, h1.2, rfl⟩ h
      · simp [skipSpecB, expSpecB, h1.1, h1.2]
    · simp [skipSpecB, expSpecB, h1]
  have hforced : ∀ j, 1 < j → j < 3 →
      expSpecB.getChild 1 j false = .state 1 ∧
      expSpecB.getChild 1 j true = .err := by
    intro j h1 h2
    have hj : j = 2 := by omega
    subst hj
    exact ⟨rfl, rfl⟩
  refine ⟨rfl, rfl, ?_⟩
  exact @c6_skip_invariance Nat inferInstance skipSpecB expSpecB 0 1 3 1 false rfl hne
    rfl rfl (by decide) (by decide) hforced 10 0 3 ⟨[]⟩
    [((0, 3), 2), ((1, 1), 2)] 2 rfl

end GoZdd
